import Mathlib

/-!
# Verification of the hstore content-addressable JSON store

This file shallowly embeds the core of the hstore repository
(`packages/core/src/objectStore.ts`, `hNode.ts`, the internal codec
utilities, the version store in `createStore.ts`, and
`packages/cascade-adapter/src/cascadeAdapter.ts`) and proves the
spec-level claims about it.

Modelling conventions:
* JavaScript strings are lists of UTF-16 code units (`JsStr`); the JS
  comparison `a < b` on strings is code-unit lexicographic order.
* Adapter byte blocks are modelled as the decoded text (`TextEncoder` /
  `TextDecoder` form a bijection on the well-formed strings that the
  codec produces, so bytes and text are identified).
* JSON numbers are modelled as integers; every number that appears in
  the claims (tags, timestamps, malformed head records) is an integer,
  and the codec treats numbers opaquely otherwise.
* `JSON.stringify` / `JSON.parse` are modelled executably; `JSON.parse`
  does not model interstitial whitespace (no canonical encoding
  contains any), fractional or exponent number forms.
* Asynchronous fan-out is modelled as left-to-right sequential state
  threading; a thrown exception / rejected promise is `Except.error`.
-/

namespace HStore

/-- A JavaScript string: the list of its UTF-16 code units. -/
abbrev JsStr := List Nat

/-- First-match association-list lookup (models `Map.get` where `Map.set`
conses the newest binding to the front). -/
def lookupA {α β : Type} [DecidableEq α] : List (α × β) → α → Option β
  | [], _ => none
  | (k, v) :: rest, key => if k = key then some v else lookupA rest key

/-- JSON primitive values (`null`, booleans, numbers, strings). -/
inductive JPrim where
  | null : JPrim
  | bool (b : Bool) : JPrim
  | num (n : Int) : JPrim
  | str (s : JsStr) : JPrim
deriving DecidableEq

/-- JSON values.  Objects are the ordered list of own enumerable entries
(JS enumeration order); arrays are ordered. -/
inductive Jsonv where
  | prim (p : JPrim) : Jsonv
  | arr (xs : List Jsonv) : Jsonv
  | obj (es : List (JsStr × Jsonv)) : Jsonv

/-- Code units of an ASCII Lean string literal. -/
def strUnits (s : String) : JsStr := s.data.map (fun c => c.toNat)

/-- Lowercase hexadecimal digit, as a code unit. -/
def hexDigit (n : Nat) : Nat := if n < 10 then 48 + n else 87 + n

/-- Four lowercase hex digits for a code unit below `0x10000`. -/
def hex4 (n : Nat) : JsStr :=
  [hexDigit (n / 4096 % 16), hexDigit (n / 256 % 16), hexDigit (n / 16 % 16), hexDigit (n % 16)]

/-- A `\uXXXX` escape sequence. -/
def uEscape (c : Nat) : JsStr := 92 :: 117 :: hex4 c

/-- String escaping of well-formed `JSON.stringify`: quote, backslash and
control characters are escaped, lone surrogates get `\uXXXX` escapes,
properly paired surrogates pass through. -/
def escapeUnits : JsStr → JsStr
  | [] => []
  | c :: rest =>
    if c = 34 then 92 :: 34 :: escapeUnits rest
    else if c = 92 then 92 :: 92 :: escapeUnits rest
    else if c = 8 then 92 :: 98 :: escapeUnits rest
    else if c = 9 then 92 :: 116 :: escapeUnits rest
    else if c = 10 then 92 :: 110 :: escapeUnits rest
    else if c = 12 then 92 :: 102 :: escapeUnits rest
    else if c = 13 then 92 :: 114 :: escapeUnits rest
    else if c < 32 then uEscape c ++ escapeUnits rest
    else if 55296 ≤ c ∧ c ≤ 56319 then
      match rest with
      | d :: rest2 =>
        if 56320 ≤ d ∧ d ≤ 57343 then c :: d :: escapeUnits rest2
        else uEscape c ++ escapeUnits (d :: rest2)
      | [] => uEscape c
    else if 56320 ≤ c ∧ c ≤ 57343 then uEscape c ++ escapeUnits rest
    else c :: escapeUnits rest
termination_by s => s.length
decreasing_by
  all_goals simp only [List.length_cons]
  all_goals omega

/-- A JSON string literal: quoted, escaped content. -/
def quoteStr (s : JsStr) : JsStr := 34 :: (escapeUnits s ++ [34])

/-- Decimal digits of a natural number, as code units (big-endian). -/
def natUnits (n : Nat) : JsStr :=
  if n = 0 then [48] else (Nat.digits 10 n).reverse.map (fun d => 48 + d)

/-- `JSON.stringify` of an integer JS number. -/
def intUnits : Int → JsStr
  | .ofNat n => natUnits n
  | .negSucc m => 45 :: natUnits (m + 1)

/-- Comma-separated concatenation. -/
def joinComma : List JsStr → JsStr
  | [] => []
  | [s] => s
  | s :: t :: rest => s ++ 44 :: joinComma (t :: rest)

/-- `JSON.stringify`: minified JSON text, object entries in their own
(insertion) order.  The literal keywords are spelled as code units. -/
def stringifyJson : Jsonv → JsStr
  | .prim .null => [110, 117, 108, 108]
  | .prim (.bool true) => [116, 114, 117, 101]
  | .prim (.bool false) => [102, 97, 108, 115, 101]
  | .prim (.num n) => intUnits n
  | .prim (.str s) => quoteStr s
  | .arr xs => 91 :: (joinComma (xs.attach.map (fun x => stringifyJson x.1)) ++ [93])
  | .obj es =>
      123 :: (joinComma (es.attach.map (fun e => quoteStr e.1.1 ++ 58 :: stringifyJson e.1.2)) ++ [125])
decreasing_by
  · have := List.sizeOf_lt_of_mem x.2
    simp only [Jsonv.arr.sizeOf_spec]
    omega
  · have h1 := List.sizeOf_lt_of_mem e.2
    have h2 : sizeOf e.1.2 < sizeOf e.1 := by
      obtain ⟨a, b⟩ := e.1
      simp only [Prod.mk.sizeOf_spec]
      omega
    simp only [Jsonv.obj.sizeOf_spec]
    omega

theorem sj_null : stringifyJson (.prim .null) = [110, 117, 108, 108] := by rw [stringifyJson]

theorem sj_true : stringifyJson (.prim (.bool true)) = [116, 114, 117, 101] := by
  rw [stringifyJson]

theorem sj_false : stringifyJson (.prim (.bool false)) = [102, 97, 108, 115, 101] := by
  rw [stringifyJson]

theorem sj_num (n : Int) : stringifyJson (.prim (.num n)) = intUnits n := by
  cases n <;> rw [stringifyJson]

theorem sj_str (s : JsStr) : stringifyJson (.prim (.str s)) = quoteStr s := by
  rw [stringifyJson]

theorem stringifyJson_arr (xs : List Jsonv) :
    stringifyJson (.arr xs) = 91 :: (joinComma (xs.map stringifyJson) ++ [93]) := by
  rw [stringifyJson]
  rw [List.attach_map_val xs stringifyJson]

theorem stringifyJson_obj (es : List (JsStr × Jsonv)) :
    stringifyJson (.obj es) =
      123 :: (joinComma (es.map (fun e => quoteStr e.1 ++ 58 :: stringifyJson e.2)) ++ [125]) := by
  rw [stringifyJson]
  rw [List.attach_map_val es (fun e => quoteStr e.1 ++ 58 :: stringifyJson e.2)]

/-- Decimal digit test on a code unit. -/
def isDigitU (c : Nat) : Bool := 48 ≤ c && c ≤ 57

/-- Hex value of a code unit (`JSON.parse` accepts either case). -/
def hexVal (c : Nat) : Option Nat :=
  if 48 ≤ c ∧ c ≤ 57 then some (c - 48)
  else if 97 ≤ c ∧ c ≤ 102 then some (c - 87)
  else if 65 ≤ c ∧ c ≤ 70 then some (c - 55)
  else none

/-- Match an exact code-unit prefix, returning the remainder. -/
def dropPrefixU : JsStr → JsStr → Option JsStr
  | [], s => some s
  | a :: p, b :: s => if a = b then dropPrefixU p s else none
  | _ :: _, [] => none

/-- Body of a JSON string literal after the opening quote: decoded units
plus the input following the closing quote. -/
def parseStringBody : JsStr → Option (JsStr × JsStr)
  | [] => none
  | c :: rest =>
    if c = 34 then some ([], rest)
    else if c = 92 then
      match rest with
      | [] => none
      | e :: rest2 =>
        if e = 34 then (parseStringBody rest2).map (fun r => (34 :: r.1, r.2))
        else if e = 92 then (parseStringBody rest2).map (fun r => (92 :: r.1, r.2))
        else if e = 47 then (parseStringBody rest2).map (fun r => (47 :: r.1, r.2))
        else if e = 98 then (parseStringBody rest2).map (fun r => (8 :: r.1, r.2))
        else if e = 102 then (parseStringBody rest2).map (fun r => (12 :: r.1, r.2))
        else if e = 110 then (parseStringBody rest2).map (fun r => (10 :: r.1, r.2))
        else if e = 114 then (parseStringBody rest2).map (fun r => (13 :: r.1, r.2))
        else if e = 116 then (parseStringBody rest2).map (fun r => (9 :: r.1, r.2))
        else if e = 117 then
          match rest2 with
          | a :: b :: c2 :: d :: rest3 =>
            match hexVal a, hexVal b, hexVal c2, hexVal d with
            | some x, some y, some z, some w =>
              (parseStringBody rest3).map
                (fun r => ((((x * 16 + y) * 16 + z) * 16 + w) :: r.1, r.2))
            | _, _, _, _ => none
          | _ => none
        else none
    else if c < 32 then none
    else (parseStringBody rest).map (fun r => (c :: r.1, r.2))

/-- Digit-run consumption with Horner accumulation. -/
def parseDigitsLoop (acc : Nat) : JsStr → Nat × JsStr
  | [] => (acc, [])
  | c :: rest =>
    if isDigitU c then parseDigitsLoop (acc * 10 + (c - 48)) rest else (acc, c :: rest)

/-- Parse a JSON integer numeral: optional minus, then a digit run. -/
def parseNumber : JsStr → Option (Int × JsStr)
  | [] => none
  | c :: rest =>
    if c = 45 then
      match rest with
      | d :: rest2 =>
        if isDigitU d then
          let r := parseDigitsLoop (d - 48) rest2
          some (-(r.1 : Int), r.2)
        else none
      | [] => none
    else if isDigitU c then
      let r := parseDigitsLoop (c - 48) rest
      some ((r.1 : Int), r.2)
    else none

/-- JS object member insertion (`obj[k] = v`): an existing key keeps its
position and receives the new value, a new key is appended. -/
def objInsert (es : List (JsStr × Jsonv)) (k : JsStr) (v : Jsonv) : List (JsStr × Jsonv) :=
  if es.any (fun e => e.1 = k) then es.map (fun e => if e.1 = k then (k, v) else e)
  else es ++ [(k, v)]

/-- Sequential member insertion, as JS object literal construction does. -/
def buildObj (pairs : List (JsStr × Jsonv)) : List (JsStr × Jsonv) :=
  pairs.foldl (fun acc e => objInsert acc e.1 e.2) []

mutual

/-- Recursive-descent JSON value parse; the fuel bounds recursion depth
and is decremented on every nested call. -/
def parseValue : Nat → JsStr → Option (Jsonv × JsStr)
  | 0, _ => none
  | f + 1, input =>
    match input with
    | [] => none
    | c :: t =>
      if c = 34 then (parseStringBody t).map (fun r => (Jsonv.prim (.str r.1), r.2))
      else if c = 91 then
        match t with
        | [] => none
        | d :: t2 =>
          if d = 93 then some (.arr [], t2)
          else (parseElems f t).map (fun r => (Jsonv.arr r.1, r.2))
      else if c = 123 then
        match t with
        | [] => none
        | d :: t2 =>
          if d = 125 then some (.obj [], t2)
          else (parseMembers f t).map (fun r => (Jsonv.obj (buildObj r.1), r.2))
      else if c = 110 then (dropPrefixU [117, 108, 108] t).map (fun r => (Jsonv.prim .null, r))
      else if c = 116 then (dropPrefixU [114, 117, 101] t).map (fun r => (Jsonv.prim (.bool true), r))
      else if c = 102 then
        (dropPrefixU [97, 108, 115, 101] t).map (fun r => (Jsonv.prim (.bool false), r))
      else (parseNumber (c :: t)).map (fun r => (Jsonv.prim (.num r.1), r.2))

/-- Parse the elements of a (nonempty) array body up to `]`. -/
def parseElems : Nat → JsStr → Option (List Jsonv × JsStr)
  | 0, _ => none
  | f + 1, input =>
    match parseValue f input with
    | none => none
    | some (v, rest) =>
      match rest with
      | [] => none
      | c :: rest2 =>
        if c = 44 then (parseElems f rest2).map (fun r => (v :: r.1, r.2))
        else if c = 93 then some ([v], rest2)
        else none

/-- Parse the members of a (nonempty) object body up to the closing
brace, in textual order (duplicates included). -/
def parseMembers : Nat → JsStr → Option (List (JsStr × Jsonv) × JsStr)
  | 0, _ => none
  | f + 1, input =>
    match input with
    | [] => none
    | c :: t =>
      if c = 34 then
        match parseStringBody t with
        | none => none
        | some (k, rest2) =>
          match rest2 with
          | [] => none
          | d :: rest3 =>
            if d = 58 then
              match parseValue f rest3 with
              | none => none
              | some (v, rest4) =>
                match rest4 with
                | [] => none
                | e :: rest5 =>
                  if e = 44 then (parseMembers f rest5).map (fun r => ((k, v) :: r.1, r.2))
                  else if e = 125 then some ([(k, v)], rest5)
                  else none
            else none
      else none

end

/-- `JSON.parse` over the modelled fragment; `none` models a thrown
SyntaxError. -/
def jsonParse (s : JsStr) : Option Jsonv :=
  match parseValue (s.length + 1) s with
  | some (v, []) => some v
  | _ => none

/-- Input may not continue with a decimal digit (so a numeral cannot be
extended); every delimiter and the empty input qualify. -/
def restOk : JsStr → Bool
  | [] => true
  | c :: _ => !isDigitU c

theorem hexVal_hexDigit {d : Nat} (h : d < 16) : hexVal (hexDigit d) = some d := by
  interval_cases d <;> decide

theorem dropPrefixU_append (p s : JsStr) : dropPrefixU p (p ++ s) = some s := by
  induction p with
  | nil => rfl
  | cons a p ih => simp [dropPrefixU, ih]

theorem psb_quote (r : JsStr) : parseStringBody (34 :: r) = some ([], r) := by
  rw [parseStringBody.eq_def]
  norm_num

theorem psb_lit (c : Nat) (r : JsStr) (h1 : ¬c = 34) (h2 : ¬c = 92) (h3 : ¬c < 32) :
    parseStringBody (c :: r) = (parseStringBody r).map (fun x => (c :: x.1, x.2)) := by
  rw [parseStringBody.eq_def]
  simp only [h1, h2, h3, if_false, ite_false]

theorem psb_escQuote (r : JsStr) :
    parseStringBody (92 :: 34 :: r) = (parseStringBody r).map (fun x => (34 :: x.1, x.2)) := by
  rw [parseStringBody.eq_def]
  norm_num

theorem psb_escBack (r : JsStr) :
    parseStringBody (92 :: 92 :: r) = (parseStringBody r).map (fun x => (92 :: x.1, x.2)) := by
  rw [parseStringBody.eq_def]
  norm_num

theorem psb_escB (r : JsStr) :
    parseStringBody (92 :: 98 :: r) = (parseStringBody r).map (fun x => (8 :: x.1, x.2)) := by
  rw [parseStringBody.eq_def]
  norm_num

theorem psb_escT (r : JsStr) :
    parseStringBody (92 :: 116 :: r) = (parseStringBody r).map (fun x => (9 :: x.1, x.2)) := by
  rw [parseStringBody.eq_def]
  norm_num

theorem psb_escN (r : JsStr) :
    parseStringBody (92 :: 110 :: r) = (parseStringBody r).map (fun x => (10 :: x.1, x.2)) := by
  rw [parseStringBody.eq_def]
  norm_num

theorem psb_escF (r : JsStr) :
    parseStringBody (92 :: 102 :: r) = (parseStringBody r).map (fun x => (12 :: x.1, x.2)) := by
  rw [parseStringBody.eq_def]
  norm_num

theorem psb_escR (r : JsStr) :
    parseStringBody (92 :: 114 :: r) = (parseStringBody r).map (fun x => (13 :: x.1, x.2)) := by
  rw [parseStringBody.eq_def]
  norm_num

theorem parseStringBody_uEscape (c : Nat) (hc : c < 65536) (s : JsStr) :
    parseStringBody (uEscape c ++ s) = (parseStringBody s).map (fun r => (c :: r.1, r.2)) := by
  have h1 : c / 4096 % 16 < 16 := Nat.mod_lt _ (by norm_num)
  have h2 : c / 256 % 16 < 16 := Nat.mod_lt _ (by norm_num)
  have h3 : c / 16 % 16 < 16 := Nat.mod_lt _ (by norm_num)
  have h4 : c % 16 < 16 := Nat.mod_lt _ (by norm_num)
  have harith : ((c / 4096 % 16 * 16 + c / 256 % 16) * 16 + c / 16 % 16) * 16 + c % 16 = c := by
    omega
  simp only [uEscape, hex4, List.cons_append, parseStringBody,
    hexVal_hexDigit h1, hexVal_hexDigit h2, hexVal_hexDigit h3, hexVal_hexDigit h4]
  norm_num [harith]

theorem parseStringBody_escapeUnits (s : JsStr) :
    ∀ rest, parseStringBody (escapeUnits s ++ 34 :: rest) = some (s, rest) := by
  induction s using escapeUnits.induct with
  | case1 => intro rest; simpa [escapeUnits] using psb_quote rest
  | case2 r ih =>
    intro rest
    rw [show escapeUnits (34 :: r) = 92 :: 34 :: escapeUnits r by rw [escapeUnits.eq_def]; norm_num]
    simp [psb_escQuote, ih]
  | case3 r _ ih =>
    intro rest
    rw [show escapeUnits (92 :: r) = 92 :: 92 :: escapeUnits r by rw [escapeUnits.eq_def]; norm_num]
    simp [psb_escBack, ih]
  | case4 r _ _ ih =>
    intro rest
    rw [show escapeUnits (8 :: r) = 92 :: 98 :: escapeUnits r by rw [escapeUnits.eq_def]; norm_num]
    simp [psb_escB, ih]
  | case5 r _ _ _ ih =>
    intro rest
    rw [show escapeUnits (9 :: r) = 92 :: 116 :: escapeUnits r by rw [escapeUnits.eq_def]; norm_num]
    simp [psb_escT, ih]
  | case6 r _ _ _ _ ih =>
    intro rest
    rw [show escapeUnits (10 :: r) = 92 :: 110 :: escapeUnits r by
      rw [escapeUnits.eq_def]; norm_num]
    simp [psb_escN, ih]
  | case7 r _ _ _ _ _ ih =>
    intro rest
    rw [show escapeUnits (12 :: r) = 92 :: 102 :: escapeUnits r by
      rw [escapeUnits.eq_def]; norm_num]
    simp [psb_escF, ih]
  | case8 r _ _ _ _ _ _ ih =>
    intro rest
    rw [show escapeUnits (13 :: r) = 92 :: 114 :: escapeUnits r by
      rw [escapeUnits.eq_def]; norm_num]
    simp [psb_escR, ih]
  | case9 c r h1 h2 h3 h4 h5 h6 h7 h8 ih =>
    intro rest
    rw [show escapeUnits (c :: r) = uEscape c ++ escapeUnits r by
      rw [escapeUnits.eq_def]
      simp only [h1, h2, h3, h4, h5, h6, h7, h8, if_false, ite_false, if_true, ite_true,
        if_pos h8]]
    rw [List.append_assoc, parseStringBody_uEscape c (by omega)]
    simp [ih]
  | case10 c h1 h2 h3 h4 h5 h6 h7 h8 h9 d rest2 hd ih =>
    intro rest
    rw [show escapeUnits (c :: d :: rest2) = c :: d :: escapeUnits rest2 by
      rw [escapeUnits.eq_def]
      simp [h1, h2, h3, h4, h5, h6, h7, h8, h9, hd]]
    have hd1 : ¬(d = 34) := by omega
    have hd2 : ¬(d = 92) := by omega
    have hd3 : ¬(d < 32) := by omega
    rw [List.cons_append, List.cons_append, psb_lit c _ h1 h2 h8, psb_lit d _ hd1 hd2 hd3,
      ih rest]
    rfl
  | case11 c h1 h2 h3 h4 h5 h6 h7 h8 h9 d rest2 hd ih =>
    intro rest
    rw [show escapeUnits (c :: d :: rest2) = uEscape c ++ escapeUnits (d :: rest2) by
      rw [escapeUnits.eq_def]
      simp [h1, h2, h3, h4, h5, h6, h7, h8, h9, hd]]
    rw [List.append_assoc, parseStringBody_uEscape c (by omega)]
    simp [ih]
  | case12 c h1 h2 h3 h4 h5 h6 h7 h8 h9 =>
    intro rest
    rw [show escapeUnits [c] = uEscape c by
      rw [escapeUnits.eq_def]
      simp [h1, h2, h3, h4, h5, h6, h7, h8, h9]]
    rw [parseStringBody_uEscape c (by omega), psb_quote]
    rfl
  | case13 c r h1 h2 h3 h4 h5 h6 h7 h8 h9 h10 ih =>
    intro rest
    rw [show escapeUnits (c :: r) = uEscape c ++ escapeUnits r by
      rw [escapeUnits.eq_def]
      simp [h1, h2, h3, h4, h5, h6, h7, h8, h9, h10]]
    rw [List.append_assoc, parseStringBody_uEscape c (by omega)]
    simp [ih]
  | case14 c r h1 h2 h3 h4 h5 h6 h7 h8 h9 h10 ih =>
    intro rest
    rw [show escapeUnits (c :: r) = c :: escapeUnits r by
      rw [escapeUnits.eq_def]
      simp [h1, h2, h3, h4, h5, h6, h7, h8, h9, h10]]
    rw [List.cons_append, psb_lit c _ h1 h2 h8, ih rest]
    rfl

theorem parseDigitsLoop_append (L : List Nat) :
    ∀ acc rest, (∀ d ∈ L, d < 10) → restOk rest = true →
      parseDigitsLoop acc (L.map (fun d => 48 + d) ++ rest) =
        (L.foldl (fun a d => a * 10 + d) acc, rest) := by
  induction L with
  | nil =>
    intro acc rest _ hrest
    cases rest with
    | nil => rfl
    | cons c t =>
      simp only [restOk, Bool.not_eq_true'] at hrest
      simp [parseDigitsLoop, hrest]
  | cons d L ih =>
    intro acc rest hL hrest
    have hd : d < 10 := hL d (by simp)
    have : isDigitU (48 + d) = true := by simp [isDigitU]; omega
    simp only [List.map_cons, List.cons_append, parseDigitsLoop, this, if_true, ite_true,
      List.foldl_cons]
    rw [show 48 + d - 48 = d by omega]
    exact ih _ rest (fun x hx => hL x (by simp [hx])) hrest

theorem foldl_reverse_digits (ds : List Nat) (acc : Nat) :
    (ds.reverse).foldl (fun a d => a * 10 + d) acc =
      acc * 10 ^ ds.length + Nat.ofDigits 10 ds := by
  induction ds generalizing acc with
  | nil => simp
  | cons d ds ih =>
    simp only [List.reverse_cons, List.foldl_append, List.foldl_cons, List.foldl_nil, ih,
      Nat.ofDigits_cons, List.length_cons, pow_succ]
    ring

theorem natUnits_shape (m : Nat) :
    ∃ c t, natUnits m = c :: t ∧ 48 ≤ c ∧ c ≤ 57 ∧
      ∀ rest, restOk rest = true → parseDigitsLoop (c - 48) (t ++ rest) = (m, rest) := by
  rcases Nat.eq_zero_or_pos m with hm | hm
  · subst hm
    refine ⟨48, [], rfl, by omega, by omega, ?_⟩
    intro rest hrest
    cases rest with
    | nil => rfl
    | cons c t =>
      simp only [restOk, Bool.not_eq_true'] at hrest
      simp [parseDigitsLoop, hrest]
  · have hne : Nat.digits 10 m ≠ [] := Nat.digits_ne_nil_iff_ne_zero.mpr (by omega)
    have hlt : ∀ d ∈ Nat.digits 10 m, d < 10 := fun d hd => Nat.digits_lt_base (by norm_num) hd
    obtain ⟨d0, L, hL⟩ : ∃ d0 L, (Nat.digits 10 m).reverse = d0 :: L := by
      rcases h : (Nat.digits 10 m).reverse with _ | ⟨d0, L⟩
      · exact absurd (by simpa using congrArg List.reverse h) hne
      · exact ⟨d0, L, rfl⟩
    have hmem : ∀ d ∈ d0 :: L, d < 10 := by
      intro d hd
      exact hlt d (by
        have : d ∈ (Nat.digits 10 m).reverse := hL ▸ hd
        simpa using this)
    have hd0 : d0 < 10 := hmem d0 (by simp)
    refine ⟨48 + d0, L.map (fun d => 48 + d), ?_, by omega, by omega, ?_⟩
    · rw [natUnits, if_neg (by omega), hL]
      simp
    · intro rest hrest
      rw [show 48 + d0 - 48 = d0 by omega,
        parseDigitsLoop_append L d0 rest (fun d hd => hmem d (by simp [hd])) hrest]
      have : (d0 :: L).foldl (fun a d => a * 10 + d) 0 = m := by
        rw [← hL, foldl_reverse_digits]
        simpa using Nat.ofDigits_digits 10 m
      simp only [List.foldl_cons] at this
      rw [show (0 : Nat) * 10 + d0 = d0 by omega] at this
      rw [this]

theorem parseNumber_intUnits (n : Int) (rest : JsStr) (hrest : restOk rest = true) :
    parseNumber (intUnits n ++ rest) = some (n, rest) := by
  cases n with
  | ofNat m =>
    obtain ⟨c, t, hshape, hc1, hc2, hrun⟩ := natUnits_shape m
    rw [show intUnits (Int.ofNat m) = natUnits m from rfl, hshape]
    simp only [List.cons_append, parseNumber, if_neg (show ¬c = 45 by omega),
      if_pos (show isDigitU c = true by simp [isDigitU]; omega)]
    rw [hrun rest hrest]
    rfl
  | negSucc m =>
    obtain ⟨c, t, hshape, hc1, hc2, hrun⟩ := natUnits_shape (m + 1)
    rw [show intUnits (Int.negSucc m) = 45 :: natUnits (m + 1) from rfl, hshape]
    simp only [List.cons_append, parseNumber, if_pos rfl,
      if_pos (show isDigitU c = true by simp [isDigitU]; omega)]
    rw [hrun rest hrest]
    simp [Int.negSucc_eq]

/-- Member-wise induction principle for `Jsonv`. -/
theorem Jsonv.indMem {P : Jsonv → Prop}
    (hp : ∀ p, P (.prim p))
    (ha : ∀ xs, (∀ x ∈ xs, P x) → P (.arr xs))
    (ho : ∀ es, (∀ e ∈ es, P e.2) → P (.obj es)) : ∀ v, P v
  | .prim p => hp p
  | .arr xs => ha xs (fun x hx => Jsonv.indMem hp ha ho x)
  | .obj es => ho es (fun e he => Jsonv.indMem hp ha ho e.2)
termination_by v => sizeOf v
decreasing_by
  · have := List.sizeOf_lt_of_mem hx
    simp only [Jsonv.arr.sizeOf_spec]
    omega
  · have h1 := List.sizeOf_lt_of_mem he
    have h2 : sizeOf e.2 < sizeOf e := by
      obtain ⟨a, b⟩ := e
      simp only [Prod.mk.sizeOf_spec]
      omega
    simp only [Jsonv.obj.sizeOf_spec]
    omega

mutual

/-- Parser fuel sufficient for a stringified value. -/
def needJ : Jsonv → Nat
  | .prim _ => 1
  | .arr [] => 1
  | .arr (x :: xs) => 1 + needElems (x :: xs)
  | .obj [] => 1
  | .obj (e :: es) => 1 + needMembers (e :: es)

/-- Parser fuel sufficient for a stringified element list. -/
def needElems : List Jsonv → Nat
  | [] => 1
  | x :: xs => 1 + max (needJ x) (needElems xs)

/-- Parser fuel sufficient for a stringified member list. -/
def needMembers : List (JsStr × Jsonv) → Nat
  | [] => 1
  | e :: es => 1 + max (needJ e.2) (needMembers es)

end

/-- All object key lists in the value are duplicate-free (JS objects can
never present duplicate keys). -/
def nodupKeys : Jsonv → Bool
  | .prim _ => true
  | .arr xs => xs.attach.all (fun x => nodupKeys x.1)
  | .obj es => decide ((es.map Prod.fst).Nodup) && es.attach.all (fun e => nodupKeys e.1.2)
decreasing_by
  · have := List.sizeOf_lt_of_mem x.2
    simp only [Jsonv.arr.sizeOf_spec]
    omega
  · have h1 := List.sizeOf_lt_of_mem e.2
    have h2 : sizeOf e.1.2 < sizeOf e.1 := by
      obtain ⟨a, b⟩ := e.1
      simp only [Prod.mk.sizeOf_spec]
      omega
    simp only [Jsonv.obj.sizeOf_spec]
    omega

theorem nodupKeys_arr (xs : List Jsonv) :
    nodupKeys (.arr xs) = true ↔ ∀ x ∈ xs, nodupKeys x = true := by
  rw [nodupKeys]
  simp [List.all_eq_true]

theorem nodupKeys_obj (es : List (JsStr × Jsonv)) :
    nodupKeys (.obj es) = true ↔
      (es.map Prod.fst).Nodup ∧ ∀ e ∈ es, nodupKeys e.2 = true := by
  rw [nodupKeys]
  simp [List.all_eq_true]

theorem pv_str (f : Nat) (t : JsStr) :
    parseValue (f + 1) (34 :: t) =
      (parseStringBody t).map (fun r => (Jsonv.prim (.str r.1), r.2)) := by
  rw [parseValue.eq_def]
  norm_num

theorem pv_arr (f : Nat) (d : Nat) (t2 : JsStr) :
    parseValue (f + 1) (91 :: d :: t2) =
      if d = 93 then some (.arr [], t2)
      else (parseElems f (d :: t2)).map (fun r => (Jsonv.arr r.1, r.2)) := by
  rw [parseValue.eq_def]
  norm_num

theorem pv_obj (f : Nat) (d : Nat) (t2 : JsStr) :
    parseValue (f + 1) (123 :: d :: t2) =
      if d = 125 then some (.obj [], t2)
      else (parseMembers f (d :: t2)).map (fun r => (Jsonv.obj (buildObj r.1), r.2)) := by
  rw [parseValue.eq_def]
  norm_num

theorem pv_null (f : Nat) (t : JsStr) :
    parseValue (f + 1) (110 :: t) =
      (dropPrefixU [117, 108, 108] t).map (fun r => (Jsonv.prim .null, r)) := by
  rw [parseValue.eq_def]
  norm_num

theorem pv_true (f : Nat) (t : JsStr) :
    parseValue (f + 1) (116 :: t) =
      (dropPrefixU [114, 117, 101] t).map (fun r => (Jsonv.prim (.bool true), r)) := by
  rw [parseValue.eq_def]
  norm_num

theorem pv_false (f : Nat) (t : JsStr) :
    parseValue (f + 1) (102 :: t) =
      (dropPrefixU [97, 108, 115, 101] t).map (fun r => (Jsonv.prim (.bool false), r)) := by
  rw [parseValue.eq_def]
  norm_num

theorem pv_other (f : Nat) (c : Nat) (t : JsStr) (h34 : ¬c = 34) (h91 : ¬c = 91)
    (h123 : ¬c = 123) (h110 : ¬c = 110) (h116 : ¬c = 116) (h102 : ¬c = 102) :
    parseValue (f + 1) (c :: t) =
      (parseNumber (c :: t)).map (fun r => (Jsonv.prim (.num r.1), r.2)) := by
  rw [parseValue.eq_def]
  simp only [h34, h91, h123, h110, h116, h102, if_false, ite_false]

theorem pe_step (f : Nat) (input : JsStr) :
    parseElems (f + 1) input =
      match parseValue f input with
      | none => none
      | some (v, rest) =>
        match rest with
        | [] => none
        | c :: rest2 =>
          if c = 44 then (parseElems f rest2).map (fun r => (v :: r.1, r.2))
          else if c = 93 then some ([v], rest2)
          else none := by
  rw [parseElems.eq_def]

theorem pm_step (f : Nat) (c : Nat) (t : JsStr) (h : c = 34) :
    parseMembers (f + 1) (c :: t) =
      match parseStringBody t with
      | none => none
      | some (k, rest2) =>
        match rest2 with
        | [] => none
        | d :: rest3 =>
          if d = 58 then
            match parseValue f rest3 with
            | none => none
            | some (v, rest4) =>
              match rest4 with
              | [] => none
              | e :: rest5 =>
                if e = 44 then (parseMembers f rest5).map (fun r => ((k, v) :: r.1, r.2))
                else if e = 125 then some ([(k, v)], rest5)
                else none
          else none := by
  subst h
  rw [parseMembers.eq_def]
  norm_num

/-- The first code unit of a stringified value is never a delimiter. -/
theorem stringifyJson_shape (j : Jsonv) :
    ∃ c t, stringifyJson j = c :: t ∧ ¬c = 93 ∧ ¬c = 125 ∧ ¬c = 44 ∧ ¬c = 58 := by
  cases j with
  | prim p =>
    cases p with
    | null => exact ⟨110, _, sj_null, by norm_num, by norm_num, by norm_num, by norm_num⟩
    | bool b =>
      cases b with
      | true => exact ⟨116, _, sj_true, by norm_num, by norm_num, by norm_num, by norm_num⟩
      | false => exact ⟨102, _, sj_false, by norm_num, by norm_num, by norm_num, by norm_num⟩
    | num n =>
      cases n with
      | ofNat m =>
        obtain ⟨c, t, hshape, hc1, hc2, -⟩ := natUnits_shape m
        refine ⟨c, t, ?_, by omega, by omega, by omega, by omega⟩
        rw [sj_num]
        exact hshape
      | negSucc m =>
        refine ⟨45, natUnits (m + 1), ?_, by norm_num, by norm_num, by norm_num, by norm_num⟩
        rw [sj_num]
        rfl
    | str s =>
      refine ⟨34, escapeUnits s ++ [34], ?_, by norm_num, by norm_num, by norm_num,
        by norm_num⟩
      rw [sj_str]
      rfl
  | arr xs =>
    refine ⟨91, joinComma (xs.map stringifyJson) ++ [93], ?_, by norm_num, by norm_num,
      by norm_num, by norm_num⟩
    rw [stringifyJson_arr]
  | obj es =>
    refine ⟨123, joinComma (es.map (fun e => quoteStr e.1 ++ 58 :: stringifyJson e.2)) ++ [125],
      ?_, by norm_num, by norm_num, by norm_num, by norm_num⟩
    rw [stringifyJson_obj]

theorem buildObj_aux (pairs : List (JsStr × Jsonv)) :
    ∀ acc, (pairs.map Prod.fst).Nodup →
      (∀ k, k ∈ acc.map Prod.fst → k ∉ pairs.map Prod.fst) →
      pairs.foldl (fun a e => objInsert a e.1 e.2) acc = acc ++ pairs := by
  induction pairs with
  | nil => intro acc _ _; simp
  | cons e ps ih =>
    intro acc hnd hdisj
    have hkey : ¬acc.any (fun x => x.1 = e.1) = true := by
      simp only [List.any_eq_true, not_exists]
      rintro x ⟨hx, hx1⟩
      exact hdisj e.1 (by
        rw [← (show x.1 = e.1 by simpa using hx1)]
        exact List.mem_map_of_mem Prod.fst hx) (by simp)
    have hstep : objInsert acc e.1 e.2 = acc ++ [(e.1, e.2)] := by
      rw [objInsert, if_neg hkey]
    simp only [List.foldl_cons, hstep]
    rw [ih (acc ++ [(e.1, e.2)]) (by simpa using hnd.of_cons) ?_]
    · simp
    · intro k hk
      rcases List.mem_map.mp hk with ⟨x, hx, rfl⟩
      rcases List.mem_append.mp hx with hx | hx
      · intro hmem
        exact hdisj x.1 (List.mem_map_of_mem Prod.fst hx) (by simp [hmem])
      · have : x = (e.1, e.2) := by simpa using hx
        subst this
        simp only [List.map_cons, List.nodup_cons] at hnd
        exact hnd.1

theorem buildObj_nodup (pairs : List (JsStr × Jsonv)) (h : (pairs.map Prod.fst).Nodup) :
    buildObj pairs = pairs := by
  rw [buildObj, buildObj_aux pairs [] h (by simp)]
  rfl

theorem needJ_pos (j : Jsonv) : 1 ≤ needJ j := by
  cases j with
  | prim p => rw [needJ]
  | arr xs => cases xs <;> rw [needJ] <;> omega
  | obj es => cases es <;> rw [needJ] <;> omega

theorem needElems_cons (x : Jsonv) (xs : List Jsonv) :
    needElems (x :: xs) = 1 + max (needJ x) (needElems xs) := by rw [needElems]

theorem needMembers_cons (e : JsStr × Jsonv) (es : List (JsStr × Jsonv)) :
    needMembers (e :: es) = 1 + max (needJ e.2) (needMembers es) := by rw [needMembers]

theorem needJ_arr_cons (x : Jsonv) (xs : List Jsonv) :
    needJ (.arr (x :: xs)) = 1 + needElems (x :: xs) := by rw [needJ]

theorem needJ_obj_cons (e : JsStr × Jsonv) (es : List (JsStr × Jsonv)) :
    needJ (.obj (e :: es)) = 1 + needMembers (e :: es) := by rw [needJ]

theorem joinComma_one (s : JsStr) : joinComma [s] = s := rfl

theorem joinComma_cons2 (s t : JsStr) (rest : List JsStr) :
    joinComma (s :: t :: rest) = s ++ 44 :: joinComma (t :: rest) := rfl

/-- A `Parses`-style abbreviation: the stringified value parses back,
leaving any continuation intact. -/
def ParsesBack (j : Jsonv) : Prop :=
  ∀ f rest, needJ j ≤ f → restOk rest = true →
    parseValue f (stringifyJson j ++ rest) = some (j, rest)

theorem parseElems_chain (xs : List Jsonv) :
    ∀ x : Jsonv, (∀ y ∈ x :: xs, ParsesBack y) →
      ∀ f rest, needElems (x :: xs) ≤ f → restOk rest = true →
        parseElems f (joinComma ((x :: xs).map stringifyJson) ++ 93 :: rest) =
          some (x :: xs, rest) := by
  induction xs with
  | nil =>
    intro x hpb f rest hf hrest
    rw [needElems_cons] at hf
    obtain ⟨f0, rfl⟩ : ∃ f0, f = f0 + 1 := ⟨f - 1, by omega⟩
    rw [List.map_cons, List.map_nil, joinComma_one, pe_step,
      hpb x (by simp) f0 (93 :: rest) (by omega) (by rfl)]
    rfl
  | cons x1 xs ih =>
    intro x hpb f rest hf hrest
    rw [needElems_cons] at hf
    obtain ⟨f0, rfl⟩ : ∃ f0, f = f0 + 1 := ⟨f - 1, by omega⟩
    rw [List.map_cons, List.map_cons, joinComma_cons2, List.append_assoc, List.cons_append,
      pe_step, hpb x (by simp) f0 _ (by omega) (by rfl)]
    have := ih x1 (fun y hy => hpb y (List.mem_cons_of_mem x hy)) f0 rest (by omega) hrest
    rw [List.map_cons] at this
    simp only [this]
    rfl

theorem parseMembers_chain (es : List (JsStr × Jsonv)) :
    ∀ e : JsStr × Jsonv, (∀ x ∈ e :: es, ParsesBack x.2) →
      ∀ f rest, needMembers (e :: es) ≤ f → restOk rest = true →
        parseMembers f
            (joinComma ((e :: es).map (fun x => quoteStr x.1 ++ 58 :: stringifyJson x.2)) ++
              125 :: rest) =
          some (e :: es, rest) := by
  induction es with
  | nil =>
    intro e hpb f rest hf hrest
    rw [needMembers_cons] at hf
    obtain ⟨f0, rfl⟩ : ∃ f0, f = f0 + 1 := ⟨f - 1, by omega⟩
    have hv := hpb e (by simp) f0 (125 :: rest) (by omega) (by rfl)
    have hinput : joinComma (([e] : List (JsStr × Jsonv)).map
          (fun x => quoteStr x.1 ++ 58 :: stringifyJson x.2)) ++ 125 :: rest =
        34 :: (escapeUnits e.1 ++ 34 :: (58 :: (stringifyJson e.2 ++ 125 :: rest))) := by
      simp [joinComma, quoteStr]
    rw [hinput, pm_step f0 34 _ rfl, parseStringBody_escapeUnits]
    simp [hv]
  | cons e1 es ih =>
    intro e hpb f rest hf hrest
    rw [needMembers_cons] at hf
    obtain ⟨f0, rfl⟩ : ∃ f0, f = f0 + 1 := ⟨f - 1, by omega⟩
    have hv := hpb e (by simp) f0
      (44 :: (joinComma ((e1 :: es).map (fun x => quoteStr x.1 ++ 58 :: stringifyJson x.2)) ++
        125 :: rest)) (by omega) (by rfl)
    have hrec := ih e1 (fun y hy => hpb y (List.mem_cons_of_mem e hy)) f0 rest (by omega)
      hrest
    have hinput : joinComma ((e :: e1 :: es).map
          (fun x => quoteStr x.1 ++ 58 :: stringifyJson x.2)) ++ 125 :: rest =
        34 :: (escapeUnits e.1 ++ 34 :: (58 :: (stringifyJson e.2 ++
          44 :: (joinComma ((e1 :: es).map (fun x => quoteStr x.1 ++ 58 :: stringifyJson x.2)) ++
            125 :: rest)))) := by
      simp [joinComma_cons2, quoteStr]
    rw [hinput, pm_step f0 34 _ rfl, parseStringBody_escapeUnits]
    simp only [List.map_cons] at hv hrec
    simp [hv, hrec]

theorem parseValue_stringify (j : Jsonv) (hnd : nodupKeys j = true) : ParsesBack j := by
  induction j using Jsonv.indMem with
  | hp p =>
    intro f rest hf hrest
    obtain ⟨f0, rfl⟩ : ∃ f0, f = f0 + 1 := ⟨f - 1, by
      have := needJ_pos (Jsonv.prim p)
      omega⟩
    cases p with
    | null =>
      rw [sj_null, show ([110, 117, 108, 108] : JsStr) ++ rest =
        110 :: 117 :: 108 :: 108 :: rest from rfl, pv_null,
        show (117 :: 108 :: 108 :: rest : JsStr) = [117, 108, 108] ++ rest from rfl,
        dropPrefixU_append]
      rfl
    | bool b =>
      cases b with
      | true =>
        rw [sj_true, show ([116, 114, 117, 101] : JsStr) ++ rest =
          116 :: 114 :: 117 :: 101 :: rest from rfl, pv_true,
          show (114 :: 117 :: 101 :: rest : JsStr) = [114, 117, 101] ++ rest from rfl,
          dropPrefixU_append]
        rfl
      | false =>
        rw [sj_false, show ([102, 97, 108, 115, 101] : JsStr) ++ rest =
          102 :: 97 :: 108 :: 115 :: 101 :: rest from rfl, pv_false,
          show (97 :: 108 :: 115 :: 101 :: rest : JsStr) = [97, 108, 115, 101] ++ rest from rfl,
          dropPrefixU_append]
        rfl
    | num n =>
      rw [sj_num]
      cases n with
      | ofNat m =>
        obtain ⟨c, t, hshape, hc1, hc2, -⟩ := natUnits_shape m
        rw [show intUnits (Int.ofNat m) = natUnits m from rfl, hshape, List.cons_append,
          pv_other f0 c _ (by omega) (by omega) (by omega) (by omega) (by omega) (by omega),
          show c :: (t ++ rest) = (c :: t) ++ rest from rfl, ← hshape,
          show natUnits m = intUnits (Int.ofNat m) from rfl,
          parseNumber_intUnits _ _ hrest]
        rfl
      | negSucc m =>
        rw [show intUnits (Int.negSucc m) = 45 :: natUnits (m + 1) from rfl, List.cons_append,
          pv_other f0 45 _ (by omega) (by omega) (by omega) (by omega) (by omega) (by omega),
          show (45 : Nat) :: (natUnits (m + 1) ++ rest) =
            (45 :: natUnits (m + 1)) ++ rest from rfl,
          show (45 : Nat) :: natUnits (m + 1) = intUnits (Int.negSucc m) from rfl,
          parseNumber_intUnits _ _ hrest]
        rfl
    | str s =>
      rw [sj_str, show quoteStr s ++ rest = 34 :: (escapeUnits s ++ 34 :: rest) by
        simp [quoteStr], pv_str, parseStringBody_escapeUnits]
      rfl
  | ha xs ih =>
    intro f rest hf hrest
    obtain ⟨f0, rfl⟩ : ∃ f0, f = f0 + 1 := ⟨f - 1, by
      have := needJ_pos (Jsonv.arr xs)
      omega⟩
    cases xs with
    | nil =>
      rw [stringifyJson_arr]
      rw [show (91 : Nat) :: (joinComma ([].map stringifyJson) ++ [93]) ++ rest =
        91 :: 93 :: rest by simp [joinComma], pv_arr, if_pos rfl]
    | cons x xs =>
      rw [needJ_arr_cons] at hf
      have hnd' : ∀ y ∈ x :: xs, nodupKeys y = true := (nodupKeys_arr _).mp hnd
      have hpb : ∀ y ∈ x :: xs, ParsesBack y := fun y hy => ih y hy (hnd' y hy)
      obtain ⟨c, t, hshape, hne93, -, -, -⟩ := stringifyJson_shape x
      have hjoin : joinComma ((x :: xs).map stringifyJson) ++ 93 :: rest =
          c :: (joinComma ((x :: xs).map stringifyJson) ++ 93 :: rest).tail := by
        cases xs with
        | nil => rw [List.map_cons, List.map_nil, joinComma_one, hshape]; rfl
        | cons x1 xs1 =>
          rw [List.map_cons, List.map_cons, joinComma_cons2, hshape]
          rfl
      rw [stringifyJson_arr, List.cons_append, List.append_assoc,
        show ([93] : JsStr) ++ rest = 93 :: rest from rfl, hjoin, pv_arr, if_neg hne93,
        ← hjoin, parseElems_chain xs x hpb f0 rest (by omega) hrest]
      rfl
  | ho es ih =>
    intro f rest hf hrest
    obtain ⟨f0, rfl⟩ : ∃ f0, f = f0 + 1 := ⟨f - 1, by
      have := needJ_pos (Jsonv.obj es)
      omega⟩
    cases es with
    | nil =>
      rw [stringifyJson_obj]
      rw [show (123 : Nat) :: (joinComma (([] : List (JsStr × Jsonv)).map
          (fun e => quoteStr e.1 ++ 58 :: stringifyJson e.2)) ++ [125]) ++ rest =
        123 :: 125 :: rest by simp [joinComma], pv_obj, if_pos rfl]
    | cons e es =>
      rw [needJ_obj_cons] at hf
      obtain ⟨hkeys, hvals⟩ := (nodupKeys_obj _).mp hnd
      have hpb : ∀ y ∈ e :: es, ParsesBack y.2 := fun y hy => ih y hy (hvals y hy)
      have hjoin : joinComma ((e :: es).map
            (fun x => quoteStr x.1 ++ 58 :: stringifyJson x.2)) ++ 125 :: rest =
          34 :: (joinComma ((e :: es).map
            (fun x => quoteStr x.1 ++ 58 :: stringifyJson x.2)) ++ 125 :: rest).tail := by
        cases es with
        | nil =>
          rw [List.map_cons, List.map_nil, joinComma_one]
          simp [quoteStr]
        | cons e1 es1 =>
          rw [List.map_cons, List.map_cons, joinComma_cons2]
          simp [quoteStr]
      rw [stringifyJson_obj, List.cons_append, List.append_assoc,
        show ([125] : JsStr) ++ rest = 125 :: rest from rfl, hjoin, pv_obj,
        if_neg (by norm_num), ← hjoin,
        parseMembers_chain es e hpb f0 rest (by omega) hrest]
      simp [buildObj_nodup _ hkeys]

theorem stringify_len_pos (j : Jsonv) : 1 ≤ (stringifyJson j).length := by
  obtain ⟨c, t, hshape, -⟩ := stringifyJson_shape j
  rw [hshape]
  simp

theorem needElems_le (xs : List Jsonv) (x : Jsonv)
    (hIH : ∀ y ∈ x :: xs, needJ y ≤ (stringifyJson y).length) :
    needElems (x :: xs) ≤ (joinComma ((x :: xs).map stringifyJson)).length + 1 := by
  induction xs generalizing x with
  | nil =>
    rw [needElems_cons, List.map_cons, List.map_nil, joinComma_one, needElems]
    have h1 := hIH x (by simp)
    have h2 := stringify_len_pos x
    omega
  | cons x1 xs ih =>
    rw [needElems_cons, List.map_cons, List.map_cons, joinComma_cons2]
    have h1 := hIH x (by simp)
    have h2 := ih x1 (fun y hy => hIH y (List.mem_cons_of_mem x hy))
    rw [List.map_cons] at h2
    simp only [List.length_append, List.length_cons]
    omega

theorem needMembers_le (es : List (JsStr × Jsonv)) (e : JsStr × Jsonv)
    (hIH : ∀ y ∈ e :: es, needJ y.2 ≤ (stringifyJson y.2).length) :
    needMembers (e :: es) ≤
      (joinComma ((e :: es).map (fun x => quoteStr x.1 ++ 58 :: stringifyJson x.2))).length +
        1 := by
  induction es generalizing e with
  | nil =>
    rw [needMembers_cons, List.map_cons, List.map_nil, joinComma_one, needMembers]
    have h1 := hIH e (by simp)
    simp only [List.length_append, List.length_cons]
    omega
  | cons e1 es ih =>
    rw [needMembers_cons, List.map_cons, List.map_cons, joinComma_cons2]
    have h1 := hIH e (by simp)
    have h2 := ih e1 (fun y hy => hIH y (List.mem_cons_of_mem e hy))
    rw [List.map_cons] at h2
    simp only [List.length_append, List.length_cons]
    omega

theorem needJ_le_len (j : Jsonv) : needJ j ≤ (stringifyJson j).length := by
  induction j using Jsonv.indMem with
  | hp p => exact le_trans (by rw [needJ]) (stringify_len_pos _)
  | ha xs ih =>
    cases xs with
    | nil => rw [needJ, stringifyJson_arr]; simp [joinComma]
    | cons x xs =>
      rw [needJ_arr_cons, stringifyJson_arr]
      have := needElems_le xs x ih
      simp only [List.length_cons, List.length_append]
      omega
  | ho es ih =>
    cases es with
    | nil => rw [needJ, stringifyJson_obj]; simp [joinComma]
    | cons e es =>
      rw [needJ_obj_cons, stringifyJson_obj]
      have := needMembers_le es e ih
      simp only [List.length_cons, List.length_append]
      omega

/-- `JSON.parse ∘ JSON.stringify` is the identity on values whose object
keys are duplicate-free, as for every value a JS program can hold. -/
theorem jsonParse_stringify (j : Jsonv) (h : nodupKeys j = true) :
    jsonParse (stringifyJson j) = some j := by
  rw [jsonParse]
  have hneed : needJ j ≤ (stringifyJson j).length + 1 := le_trans (needJ_le_len j) (by omega)
  have := parseValue_stringify j h ((stringifyJson j).length + 1) [] hneed rfl
  rw [List.append_nil] at this
  rw [this]

/-- The wire node type of `hNode.ts`: `[0, primitive]`, `[1, hashes]` or
`[2, sorted key/hash entries]`. -/
inductive HNode where
  | prim (p : JPrim) : HNode
  | arr (hs : List JsStr) : HNode
  | obj (es : List (JsStr × JsStr)) : HNode
deriving DecidableEq

/-- The JSON document that `serializeHNode` passes to `JSON.stringify`. -/
def hNodeToJson : HNode → Jsonv
  | .prim p => .arr [.prim (.num 0), .prim p]
  | .arr hs => .arr [.prim (.num 1), .arr (hs.map (fun h => .prim (.str h)))]
  | .obj es =>
      .arr [.prim (.num 2),
        .arr (es.map (fun e => .arr [.prim (.str e.1), .prim (.str e.2)]))]

/-- `serializeHNode`: `encoder.encode(JSON.stringify(node))` (bytes are
modelled as the decoded text). -/
def serializeHNode (n : HNode) : JsStr := stringifyJson (hNodeToJson n)

/-- Read back a `[1, …]` payload. -/
def hashListOfJson : List Jsonv → Option (List JsStr)
  | [] => some []
  | .prim (.str h) :: rest => (hashListOfJson rest).map (fun hs => h :: hs)
  | _ => none

/-- Read back a `[2, …]` payload. -/
def entryListOfJson : List Jsonv → Option (List (JsStr × JsStr))
  | [] => some []
  | .arr [.prim (.str k), .prim (.str h)] :: rest =>
      (entryListOfJson rest).map (fun es => (k, h) :: es)
  | _ => none

/-- Interpretation of parsed JSON as an `HNode`.  This models the
unchecked `as HNode` cast in `deserializeHNode` together with the shape
the store destructures downstream; a non-node shape yields `none`. -/
def jsonToHNode : Jsonv → Option HNode
  | .arr [.prim (.num 0), .prim p] => some (.prim p)
  | .arr [.prim (.num 1), .arr hs] => (hashListOfJson hs).map HNode.arr
  | .arr [.prim (.num 2), .arr es] => (entryListOfJson es).map HNode.obj
  | _ => none

/-- `deserializeHNode`: `JSON.parse(decoder.decode(bytes)) as HNode`. -/
def deserializeHNode (bytes : JsStr) : Option HNode := (jsonParse bytes).bind jsonToHNode

theorem nodupKeys_prim (p : JPrim) : nodupKeys (.prim p) = true := by rw [nodupKeys]

theorem nodupKeys_hNodeToJson (n : HNode) : nodupKeys (hNodeToJson n) = true := by
  cases n with
  | prim p =>
    rw [hNodeToJson, nodupKeys_arr]
    intro x hx
    simp only [List.mem_cons, List.mem_singleton, List.not_mem_nil, or_false] at hx
    rcases hx with rfl | rfl <;> exact nodupKeys_prim _
  | arr hs =>
    rw [hNodeToJson, nodupKeys_arr]
    intro x hx
    simp only [List.mem_cons, List.mem_singleton, List.not_mem_nil, or_false] at hx
    rcases hx with rfl | rfl
    · exact nodupKeys_prim _
    · rw [nodupKeys_arr]
      intro y hy
      rcases List.mem_map.mp hy with ⟨h, -, rfl⟩
      exact nodupKeys_prim _
  | obj es =>
    rw [hNodeToJson, nodupKeys_arr]
    intro x hx
    simp only [List.mem_cons, List.mem_singleton, List.not_mem_nil, or_false] at hx
    rcases hx with rfl | rfl
    · exact nodupKeys_prim _
    · rw [nodupKeys_arr]
      intro y hy
      rcases List.mem_map.mp hy with ⟨e, -, rfl⟩
      rw [nodupKeys_arr]
      intro z hz
      simp only [List.mem_cons, List.mem_singleton, List.not_mem_nil, or_false] at hz
      rcases hz with rfl | rfl <;> exact nodupKeys_prim _

theorem hashListOfJson_map (hs : List JsStr) :
    hashListOfJson (hs.map (fun h => Jsonv.prim (.str h))) = some hs := by
  induction hs with
  | nil => rfl
  | cons h hs ih => simp [hashListOfJson, ih]

theorem entryListOfJson_map (es : List (JsStr × JsStr)) :
    entryListOfJson (es.map (fun e => Jsonv.arr [.prim (.str e.1), .prim (.str e.2)])) =
      some es := by
  induction es with
  | nil => rfl
  | cons e es ih => simp [entryListOfJson, ih]

theorem jsonToHNode_hNodeToJson (n : HNode) : jsonToHNode (hNodeToJson n) = some n := by
  cases n with
  | prim p => rfl
  | arr hs => simp [hNodeToJson, jsonToHNode, hashListOfJson_map]
  | obj es => simp [hNodeToJson, jsonToHNode, entryListOfJson_map]

theorem stringifyJson_inj {j1 j2 : Jsonv} (h1 : nodupKeys j1 = true) (h2 : nodupKeys j2 = true)
    (h : stringifyJson j1 = stringifyJson j2) : j1 = j2 := by
  have r1 := jsonParse_stringify j1 h1
  have r2 := jsonParse_stringify j2 h2
  rw [h, r2] at r1
  exact (Option.some_inj.mp r1).symm

/-- The canonical encoding is injective on nodes. -/
theorem serializeHNode_inj {n1 n2 : HNode} (h : serializeHNode n1 = serializeHNode n2) :
    n1 = n2 := by
  have heq : hNodeToJson n1 = hNodeToJson n2 :=
    stringifyJson_inj (nodupKeys_hNodeToJson n1) (nodupKeys_hNodeToJson n2) h
  have := jsonToHNode_hNodeToJson n1
  rw [heq, jsonToHNode_hNodeToJson n2] at this
  exact (Option.some_inj.mp this).symm

/-- C8: for every well-formed node `N`, `deserialize(serialize(N)) = N`,
with `serialize` the canonical minified JSON-in-UTF-8 encoding carrying
numeric tags 0/1/2. -/
theorem C8_node_roundtrip (n : HNode) : deserializeHNode (serializeHNode n) = some n := by
  rw [deserializeHNode, serializeHNode, jsonParse_stringify _ (nodupKeys_hNodeToJson n)]
  simp [jsonToHNode_hNodeToJson]

/-- JS string comparison `a < b`: lexicographic on UTF-16 code units. -/
def jsLt : JsStr → JsStr → Bool
  | [], [] => false
  | [], _ :: _ => true
  | _ :: _, [] => false
  | a :: as, b :: bs => if a < b then true else if b < a then false else jsLt as bs

/-- Stable insertion of one entry before the first entry whose key is not
smaller. -/
def insertEntry {α : Type} (e : JsStr × α) : List (JsStr × α) → List (JsStr × α)
  | [] => [e]
  | f :: fs => if jsLt f.1 e.1 then f :: insertEntry e fs else e :: f :: fs

/-- `sortObjectEntries`: `[...entries].sort(([a], [b]) => a < b ? -1 : a > b ? 1 : 0)`.
`Array.prototype.sort` is required to be a stable comparator sort; it is
modelled by stable insertion sort with the same key comparator. -/
def sortObjectEntries {α : Type} : List (JsStr × α) → List (JsStr × α)
  | [] => []
  | e :: es => insertEntry e (sortObjectEntries es)

theorem jsLt_asymm : ∀ {a b : JsStr}, jsLt a b = true → jsLt b a = false := by
  intro a
  induction a with
  | nil => intro b h; cases b <;> simp [jsLt] at h ⊢
  | cons x as ih =>
    intro b h
    cases b with
    | nil => simp [jsLt] at h
    | cons y bs =>
      rw [jsLt.eq_def] at h ⊢
      simp only at h ⊢
      rcases Nat.lt_trichotomy x y with hxy | hxy | hxy
      · rw [if_neg (by omega), if_pos hxy]
      · subst hxy
        rw [if_neg (by omega), if_neg (by omega)] at h ⊢
        exact ih h
      · rw [if_neg (by omega), if_pos hxy] at h
        cases h

theorem jsLt_irrefl : ∀ a : JsStr, jsLt a a = false := by
  intro a
  induction a with
  | nil => rfl
  | cons x as ih =>
    rw [jsLt.eq_def]
    simp only
    rw [if_neg (by omega), if_neg (by omega)]
    exact ih

theorem jsLt_le_trans :
    ∀ a b c : JsStr, jsLt b a = false → jsLt c b = false → jsLt c a = false := by
  intro a
  induction a with
  | nil =>
    intro b c _ _
    cases c <;> simp [jsLt]
  | cons x as ih =>
    intro b c hba hcb
    cases b with
    | nil => simp [jsLt] at hba
    | cons y bs =>
      cases c with
      | nil => simp [jsLt] at hcb
      | cons z cs =>
        rw [jsLt.eq_def] at hba hcb ⊢
        simp only at hba hcb ⊢
        rcases Nat.lt_trichotomy y x with h1 | h1 | h1
        · rw [if_pos h1] at hba; cases hba
        · subst h1
          rw [if_neg (by omega), if_neg (by omega)] at hba
          rcases Nat.lt_trichotomy z y with h2 | h2 | h2
          · rw [if_pos h2] at hcb; cases hcb
          · subst h2
            rw [if_neg (by omega), if_neg (by omega)] at hcb ⊢
            exact ih bs cs hba hcb
          · rw [if_neg (by omega), if_pos h2]
        · rcases Nat.lt_trichotomy z y with h2 | h2 | h2
          · rw [if_pos h2] at hcb; cases hcb
          · subst h2
            rw [if_neg (by omega), if_pos h1]
          · rw [if_neg (by omega), if_pos (by omega)]

/-- Entry order used by the store: key not greater, per JS `<`. -/
def keyLe {α : Type} (a b : JsStr × α) : Prop := jsLt b.1 a.1 = false

theorem insertEntry_perm {α : Type} (e : JsStr × α) :
    ∀ l : List (JsStr × α), (insertEntry e l).Perm (e :: l) := by
  intro l
  induction l with
  | nil => rfl
  | cons f fs ih =>
    rw [insertEntry]
    split
    · exact (ih.cons f).trans (List.Perm.swap e f fs)
    · rfl

theorem sortObjectEntries_perm {α : Type} (es : List (JsStr × α)) :
    (sortObjectEntries es).Perm es := by
  induction es with
  | nil => rfl
  | cons e es ih => exact (insertEntry_perm e (sortObjectEntries es)).trans (ih.cons e)

theorem mem_sortObjectEntries {α : Type} {es : List (JsStr × α)} {e : JsStr × α} :
    e ∈ sortObjectEntries es ↔ e ∈ es := (sortObjectEntries_perm es).mem_iff

theorem insertEntry_head {α : Type} (e : JsStr × α) (l : List (JsStr × α)) :
    (insertEntry e l).head? = some e ∨ (insertEntry e l).head? = l.head? := by
  cases l with
  | nil => left; rfl
  | cons f fs =>
    rw [insertEntry]
    split
    · right; rfl
    · left; rfl

theorem insertEntry_sorted {α : Type} (e : JsStr × α) (l : List (JsStr × α))
    (hl : l.Chain' keyLe) : (insertEntry e l).Chain' keyLe := by
  induction l with
  | nil => simp [insertEntry]
  | cons f fs ih =>
    rw [insertEntry]
    split
    · rename_i hlt
      have htail := (List.chain'_cons'.mp hl).2
      rw [List.chain'_cons']
      refine ⟨?_, ih htail⟩
      intro y hy
      rcases insertEntry_head e fs with hh | hh
      · rw [hh] at hy
        have he : e = y := by simpa using hy
        subst he
        exact jsLt_asymm hlt
      · rw [hh] at hy
        exact (List.chain'_cons'.mp hl).1 y hy
    · rename_i hnlt
      rw [List.chain'_cons']
      refine ⟨?_, hl⟩
      intro y hy
      have hf : f = y := by simpa using hy
      subst hf
      simpa [keyLe] using hnlt

theorem sortObjectEntries_sorted {α : Type} (es : List (JsStr × α)) :
    (sortObjectEntries es).Chain' keyLe := by
  induction es with
  | nil => simp [sortObjectEntries]
  | cons e es ih => exact insertEntry_sorted e _ ih

theorem sortObjectEntries_of_sorted {α : Type} :
    ∀ l : List (JsStr × α), l.Chain' keyLe → sortObjectEntries l = l := by
  intro l
  induction l with
  | nil => intro _; rfl
  | cons e es ih =>
    intro hl
    rw [sortObjectEntries, ih (List.chain'_cons'.mp hl).2]
    cases es with
    | nil => rfl
    | cons f fs =>
      rw [insertEntry]
      have : keyLe e f := (List.chain'_cons'.mp hl).1 f rfl
      rw [if_neg (by simpa [keyLe] using this)]

theorem insertEntry_map {α β : Type} (g : α → β) (e : JsStr × α) :
    ∀ l : List (JsStr × α),
      insertEntry (e.1, g e.2) (l.map (fun x => (x.1, g x.2))) =
        (insertEntry e l).map (fun x => (x.1, g x.2)) := by
  intro l
  induction l with
  | nil => rfl
  | cons f fs ih =>
    rw [List.map_cons, insertEntry, insertEntry]
    split
    · rw [List.map_cons, ih]
    · rfl

theorem sortObjectEntries_map {α β : Type} (g : α → β) (es : List (JsStr × α)) :
    sortObjectEntries (es.map (fun x => (x.1, g x.2))) =
      (sortObjectEntries es).map (fun x => (x.1, g x.2)) := by
  induction es with
  | nil => rfl
  | cons e es ih =>
    rw [List.map_cons, sortObjectEntries, sortObjectEntries, ih, insertEntry_map]

/-- `freezeJson` (internal codec utilities): primitives pass through,
arrays are rebuilt with `map`, objects with `Object.entries` /
`Object.fromEntries`, then `Object.freeze`.  Freezing has no structural
content in the value model. -/
def freezeJson : Jsonv → Jsonv
  | .prim p => .prim p
  | .arr xs => .arr (xs.attach.map (fun x => freezeJson x.1))
  | .obj es => .obj (es.attach.map (fun e => (e.1.1, freezeJson e.1.2)))
decreasing_by
  · have := List.sizeOf_lt_of_mem x.2
    simp only [Jsonv.arr.sizeOf_spec]
    omega
  · have h1 := List.sizeOf_lt_of_mem e.2
    have h2 : sizeOf e.1.2 < sizeOf e.1 := by
      obtain ⟨a, b⟩ := e.1
      simp only [Prod.mk.sizeOf_spec]
      omega
    simp only [Jsonv.obj.sizeOf_spec]
    omega

theorem freezeJson_arr (xs : List Jsonv) :
    freezeJson (.arr xs) = .arr (xs.map freezeJson) := by
  rw [freezeJson, List.attach_map_val xs freezeJson]

theorem freezeJson_obj (es : List (JsStr × Jsonv)) :
    freezeJson (.obj es) = .obj (es.map (fun e => (e.1, freezeJson e.2))) := by
  rw [freezeJson, List.attach_map_val es (fun e => (e.1, freezeJson e.2))]

theorem freezeJson_prim (p : JPrim) : freezeJson (.prim p) = .prim p := by rw [freezeJson]

/-- Structurally, the deep-freeze pass is the identity. -/
theorem freezeJson_id : ∀ v : Jsonv, freezeJson v = v := by
  intro v
  induction v using Jsonv.indMem with
  | hp p => exact freezeJson_prim p
  | ha xs ih =>
    rw [freezeJson_arr]
    congr 1
    exact List.map_congr_left (fun x hx => ih x hx) |>.trans (List.map_id _)
  | ho es ih =>
    rw [freezeJson_obj]
    congr 1
    refine (List.map_congr_left (fun e he => ?_)).trans (List.map_id _)
    rw [ih e he]
    rfl

/-- Allocation-instrumented freeze step.  The boolean records whether the
call returns a freshly allocated JS object (a different reference from
its argument): `freezeJson` returns primitives themselves, but rebuilds
every array (`value.map(...)`) and object (`Object.fromEntries(...)`),
both of which allocate, before freezing the copy. -/
def freezeJsonAlloc : Jsonv → Jsonv × Bool
  | .prim p => (.prim p, false)
  | .arr xs => (freezeJson (.arr xs), true)
  | .obj es => (freezeJson (.obj es), true)

/-- Spec-side canonical form: object entries recursively key-sorted with
the store's comparator, array order preserved. -/
def canon : Jsonv → Jsonv
  | .prim p => .prim p
  | .arr xs => .arr (xs.attach.map (fun x => canon x.1))
  | .obj es => .obj (sortObjectEntries (es.attach.map (fun e => (e.1.1, canon e.1.2))))
decreasing_by
  · have := List.sizeOf_lt_of_mem x.2
    simp only [Jsonv.arr.sizeOf_spec]
    omega
  · have h1 := List.sizeOf_lt_of_mem e.2
    have h2 : sizeOf e.1.2 < sizeOf e.1 := by
      obtain ⟨a, b⟩ := e.1
      simp only [Prod.mk.sizeOf_spec]
      omega
    simp only [Jsonv.obj.sizeOf_spec]
    omega

theorem canon_prim (p : JPrim) : canon (.prim p) = .prim p := by rw [canon]

theorem canon_arr (xs : List Jsonv) : canon (.arr xs) = .arr (xs.map canon) := by
  rw [canon, List.attach_map_val xs canon]

theorem canon_obj (es : List (JsStr × Jsonv)) :
    canon (.obj es) = .obj (sortObjectEntries (es.map (fun e => (e.1, canon e.2)))) := by
  rw [canon, List.attach_map_val es (fun e => (e.1, canon e.2))]

/-- Code points of a UTF-16 code-unit sequence (surrogate pairs
combined), as `String.prototype.codePointAt` iterates them. -/
def utf16CodePoints : JsStr → List Nat
  | [] => []
  | [c] => [c]
  | c :: d :: rest =>
    if 55296 ≤ c ∧ c ≤ 56319 ∧ 56320 ≤ d ∧ d ≤ 57343 then
      ((c - 55296) * 1024 + (d - 56320) + 65536) :: utf16CodePoints rest
    else c :: utf16CodePoints (d :: rest)

/-- A materialized version as returned to callers (`StateVersion<T>`). -/
structure StateVersion where
  hash : JsStr
  value : Jsonv
  previous : Option JsStr
  timestamp : Int

/-- The state of one store instance: the adapter's block map plus the
per-instance caches of `objectStore.ts` and the version store.
`objectHints` is a `WeakMap` keyed on object reference identity; a pure
value model cannot re-present the same reference, so it is modelled as
the always-missing map (on a hit it would return exactly the hash the
recomputation yields, so observable behaviour is unchanged). -/
structure St where
  adapter : List (JsStr × JsStr)
  hashToValue : List (JsStr × Jsonv)
  primitiveHints : List (JPrim × JsStr)
  versionCache : List (JsStr × StateVersion)
  headMemo : Option JsStr

/-- `adapter.write({hash, bytes})` (map-set semantics). -/
def adapterWrite (S : St) (h bytes : JsStr) : St :=
  { S with adapter := (h, bytes) :: S.adapter }

/-- `remember(hash, value)`: cache the value under its hash and record
the primitive hint (composite hints live in the identity `WeakMap`). -/
def remember (S : St) (h : JsStr) (v : Jsonv) : St :=
  let S1 := { S with hashToValue := (h, v) :: S.hashToValue }
  match v with
  | .prim p => { S1 with primitiveHints := (p, h) :: S1.primitiveHints }
  | _ => S1

/-- `hintFor(value)`: primitive hint by value, composite hint by object
identity (modelled always-miss). -/
def hintFor (S : St) (v : Jsonv) : Option JsStr :=
  match v with
  | .prim p => lookupA S.primitiveHints p
  | _ => none

mutual

/-- `writeFrozen` of `objectStore.ts`: consult the hint (JS truthiness:
an empty-string hash falls through), otherwise build and persist the
node.  Parallel child writes are modelled left to right. -/
def writeFrozen (hashFn : JsStr → JsStr) (v : Jsonv) (S : St) : JsStr × St :=
  match hintFor S v with
  | some (c :: hs) => (c :: hs, S)
  | _ => writeNode hashFn v S
termination_by 2 * sizeOf v + 1
decreasing_by omega

/-- The hint-miss path of `writeFrozen`: build the node from the value,
hash its serialization, write the block unless `hashToValue` already
knows the hash, and remember the value. -/
def writeNode (hashFn : JsStr → JsStr) : Jsonv → St → JsStr × St
  | .prim p, S =>
    let bytes := serializeHNode (.prim p)
    let h := hashFn bytes
    let S2 := if (lookupA S.hashToValue h).isNone then adapterWrite S h bytes else S
    (h, remember S2 h (.prim p))
  | .arr xs, S =>
    let r := writeList hashFn xs S
    let bytes := serializeHNode (.arr r.1)
    let h := hashFn bytes
    let S2 := if (lookupA r.2.hashToValue h).isNone then adapterWrite r.2 h bytes else r.2
    (h, remember S2 h (.arr xs))
  | .obj es, S =>
    let r := writeEntries hashFn (sortObjectEntries es) S
    let bytes := serializeHNode (.obj r.1)
    let h := hashFn bytes
    let S2 := if (lookupA r.2.hashToValue h).isNone then adapterWrite r.2 h bytes else r.2
    (h, remember S2 h (.obj es))
termination_by v S => 2 * sizeOf v
decreasing_by
  · simp only [Jsonv.arr.sizeOf_spec]; omega
  · have := (sortObjectEntries_perm es).sizeOf_eq_sizeOf
    simp only [Jsonv.obj.sizeOf_spec]
    omega

/-- Child writes of an array value, in order. -/
def writeList (hashFn : JsStr → JsStr) : List Jsonv → St → List JsStr × St
  | [], S => ([], S)
  | x :: xs, S =>
    let r := writeFrozen hashFn x S
    let rs := writeList hashFn xs r.2
    (r.1 :: rs.1, rs.2)
termination_by xs S => 2 * sizeOf xs + 1
decreasing_by
  · simp only [List.cons.sizeOf_spec]; omega
  · simp only [List.cons.sizeOf_spec]; omega

/-- Child writes of the (sorted) entries of an object value. -/
def writeEntries (hashFn : JsStr → JsStr) :
    List (JsStr × Jsonv) → St → List (JsStr × JsStr) × St
  | [], S => ([], S)
  | e :: es, S =>
    let r := writeFrozen hashFn e.2 S
    let rs := writeEntries hashFn es r.2
    ((e.1, r.1) :: rs.1, rs.2)
termination_by es S => 2 * sizeOf es + 1
decreasing_by
  · have : sizeOf e.2 < sizeOf e := by
      obtain ⟨a, b⟩ := e
      simp only [Prod.mk.sizeOf_spec]
      omega
    simp only [List.cons.sizeOf_spec]
    omega
  · simp only [List.cons.sizeOf_spec]; omega

end

/-- `objectStore.write`: freeze, then write the frozen value. -/
def write (hashFn : JsStr → JsStr) (v : Jsonv) (S : St) : JsStr × St :=
  writeFrozen hashFn (freezeJson v) S

mutual

/-- `objectStore.read`: memo-cache hit, adapter fetch, deserialize,
materialize, remember.  `none` is `undefined` (absent / dangling);
`Except.error` models a thrown exception (undecodable block bytes).
The fuel only bounds recursion depth and is a model artifact. -/
def readOS (hashFn : JsStr → JsStr) : Nat → JsStr → St → Except Unit (Option Jsonv × St)
  | 0, _, _ => .error ()
  | fuel + 1, h, S =>
    match lookupA S.hashToValue h with
    | some v => .ok (some v, S)
    | none =>
      match lookupA S.adapter h with
      | none => .ok (none, S)
      | some bytes =>
        match deserializeHNode bytes with
        | none => .error ()
        | some node =>
          match materializeNode hashFn fuel node S with
          | .error e => .error e
          | .ok (none, S1) => .ok (none, S1)
          | .ok (some v, S1) => .ok (some v, remember S1 h v)
termination_by fuel h S => (fuel, 0)

/-- `materialize` of `objectStore.ts`, by node variant. -/
def materializeNode (hashFn : JsStr → JsStr) (fuel : Nat) :
    HNode → St → Except Unit (Option Jsonv × St)
  | .prim p, S => .ok (some (.prim p), S)
  | .arr hs, S =>
    match readChildren hashFn fuel hs S with
    | .error e => .error e
    | .ok (none, S1) => .ok (none, S1)
    | .ok (some vs, S1) => .ok (some (freezeJson (.arr vs)), S1)
  | .obj hes, S =>
    match readEntryChildren hashFn fuel hes S with
    | .error e => .error e
    | .ok (none, S1) => .ok (none, S1)
    | .ok (some pairs, S1) => .ok (some (freezeJson (.obj pairs)), S1)
termination_by n S => (fuel, 1 + sizeOf n)

/-- Recursive child reads of an array node, absent propagating. -/
def readChildren (hashFn : JsStr → JsStr) (fuel : Nat) :
    List JsStr → St → Except Unit (Option (List Jsonv) × St)
  | [], S => .ok (some [], S)
  | h :: hs, S =>
    match readOS hashFn fuel h S with
    | .error e => .error e
    | .ok (none, S1) => .ok (none, S1)
    | .ok (some v, S1) =>
      match readChildren hashFn fuel hs S1 with
      | .error e => .error e
      | .ok (none, S2) => .ok (none, S2)
      | .ok (some vs, S2) => .ok (some (v :: vs), S2)
termination_by hs S => (fuel, 1 + sizeOf hs)

/-- Recursive child reads of an object node, absent propagating. -/
def readEntryChildren (hashFn : JsStr → JsStr) (fuel : Nat) :
    List (JsStr × JsStr) → St → Except Unit (Option (List (JsStr × Jsonv)) × St)
  | [], S => .ok (some [], S)
  | e :: hes, S =>
    match readOS hashFn fuel e.2 S with
    | .error er => .error er
    | .ok (none, S1) => .ok (none, S1)
    | .ok (some v, S1) =>
      match readEntryChildren hashFn fuel hes S1 with
      | .error er => .error er
      | .ok (none, S2) => .ok (none, S2)
      | .ok (some pairs, S2) => .ok (some ((e.1, v) :: pairs), S2)
termination_by hes S => (fuel, 1 + sizeOf hes)

end

mutual

/-- The node `writeFrozen` composes for a value (state-independent). -/
def pureNode (hashFn : JsStr → JsStr) : Jsonv → HNode
  | .prim p => .prim p
  | .arr xs => .arr (xs.attach.map (fun x => pureHash hashFn x.1))
  | .obj es =>
      .obj ((sortObjectEntries es).attach.map (fun e => (e.1.1, pureHash hashFn e.1.2)))
termination_by v => 2 * sizeOf v
decreasing_by
  · have := List.sizeOf_lt_of_mem x.2
    simp only [Jsonv.arr.sizeOf_spec]
    omega
  · have h1 := List.sizeOf_lt_of_mem (mem_sortObjectEntries.mp e.2)
    have h2 : sizeOf e.1.2 < sizeOf e.1 := by
      obtain ⟨a, b⟩ := e.1
      simp only [Prod.mk.sizeOf_spec]
      omega
    simp only [Jsonv.obj.sizeOf_spec]
    omega

/-- The hash `writeFrozen` returns for a value (state-independent). -/
def pureHash (hashFn : JsStr → JsStr) (v : Jsonv) : JsStr :=
  hashFn (serializeHNode (pureNode hashFn v))
termination_by 2 * sizeOf v + 1

end

theorem pureNode_prim (hashFn : JsStr → JsStr) (p : JPrim) :
    pureNode hashFn (.prim p) = .prim p := by rw [pureNode]

theorem pureNode_arr (hashFn : JsStr → JsStr) (xs : List Jsonv) :
    pureNode hashFn (.arr xs) = .arr (xs.map (pureHash hashFn)) := by
  rw [pureNode, List.attach_map_val xs (pureHash hashFn)]

theorem pureNode_obj (hashFn : JsStr → JsStr) (es : List (JsStr × Jsonv)) :
    pureNode hashFn (.obj es) =
      .obj ((sortObjectEntries es).map (fun e => (e.1, pureHash hashFn e.2))) := by
  rw [pureNode, List.attach_map_val (sortObjectEntries es)
    (fun e => (e.1, pureHash hashFn e.2))]

/-- The supplied hash function is injective on the node encodings the
store produces (spec §3: collision resistance is the caller's burden). -/
def EncInj (hashFn : JsStr → JsStr) : Prop :=
  ∀ n1 n2 : HNode, hashFn (serializeHNode n1) = hashFn (serializeHNode n2) →
    serializeHNode n1 = serializeHNode n2

theorem pureNode_inj {hashFn : JsStr → JsStr} (hInj : EncInj hashFn) {v1 v2 : Jsonv}
    (h : pureHash hashFn v1 = pureHash hashFn v2) : pureNode hashFn v1 = pureNode hashFn v2 :=
  serializeHNode_inj (hInj _ _ (by rw [pureHash, pureHash] at h; exact h))

theorem map_canon_of_map_pureHash {hashFn : JsStr → JsStr} :
    ∀ xs ys : List Jsonv,
      (∀ x ∈ xs, ∀ y, pureHash hashFn x = pureHash hashFn y → canon x = canon y) →
      xs.map (pureHash hashFn) = ys.map (pureHash hashFn) →
      xs.map canon = ys.map canon := by
  intro xs
  induction xs with
  | nil =>
    intro ys _ h
    cases ys with
    | nil => rfl
    | cons y ys => simp at h
  | cons x xs ih =>
    intro ys hmem h
    cases ys with
    | nil => simp at h
    | cons y ys =>
      simp only [List.map_cons, List.cons.injEq] at h ⊢
      exact ⟨hmem x (by simp) y h.1,
        ih ys (fun z hz => hmem z (List.mem_cons_of_mem x hz)) h.2⟩

theorem mapE_canon_of_mapE_pureHash {hashFn : JsStr → JsStr} :
    ∀ l1 l2 : List (JsStr × Jsonv),
      (∀ e ∈ l1, ∀ y, pureHash hashFn e.2 = pureHash hashFn y → canon e.2 = canon y) →
      l1.map (fun e => (e.1, pureHash hashFn e.2)) = l2.map (fun e => (e.1, pureHash hashFn e.2)) →
      l1.map (fun e => (e.1, canon e.2)) = l2.map (fun e => (e.1, canon e.2)) := by
  intro l1
  induction l1 with
  | nil =>
    intro l2 _ h
    cases l2 with
    | nil => rfl
    | cons e l2 => simp at h
  | cons e l1 ih =>
    intro l2 hmem h
    cases l2 with
    | nil => simp at h
    | cons f l2 =>
      simp only [List.map_cons, List.cons.injEq, Prod.mk.injEq] at h ⊢
      exact ⟨⟨h.1.1, hmem e (by simp) f.2 h.1.2⟩,
        ih l2 (fun z hz => hmem z (List.mem_cons_of_mem e hz)) h.2⟩

/-- With an injective hash function, equal content hashes mean equal
canonical forms. -/
theorem pureHash_canon {hashFn : JsStr → JsStr} (hInj : EncInj hashFn) :
    ∀ v1 v2 : Jsonv, pureHash hashFn v1 = pureHash hashFn v2 → canon v1 = canon v2 := by
  intro v1
  induction v1 using Jsonv.indMem with
  | hp p =>
    intro v2 h
    have hn := pureNode_inj hInj h
    rw [pureNode_prim] at hn
    cases v2 with
    | prim q => rw [pureNode_prim] at hn; cases hn; rfl
    | arr ys => rw [pureNode_arr] at hn; cases hn
    | obj fs => rw [pureNode_obj] at hn; cases hn
  | ha xs ih =>
    intro v2 h
    have hn := pureNode_inj hInj h
    rw [pureNode_arr] at hn
    cases v2 with
    | prim q => rw [pureNode_prim] at hn; cases hn
    | arr ys =>
      rw [pureNode_arr] at hn
      rw [canon_arr, canon_arr]
      congr 1
      exact map_canon_of_map_pureHash xs ys ih (by injection hn)
    | obj fs => rw [pureNode_obj] at hn; cases hn
  | ho es ih =>
    intro v2 h
    have hn := pureNode_inj hInj h
    rw [pureNode_obj] at hn
    cases v2 with
    | prim q => rw [pureNode_prim] at hn; cases hn
    | arr ys => rw [pureNode_arr] at hn; cases hn
    | obj fs =>
      rw [pureNode_obj] at hn
      rw [canon_obj, canon_obj, sortObjectEntries_map, sortObjectEntries_map]
      congr 1
      refine mapE_canon_of_mapE_pureHash _ _ ?_ (by injection hn)
      intro e he y hy
      exact ih e (mem_sortObjectEntries.mp he) y hy

/-- Hashing factors through canonicalization. -/
theorem pureHash_canon_eq (hashFn : JsStr → JsStr) :
    ∀ v : Jsonv, pureHash hashFn (canon v) = pureHash hashFn v := by
  have hnode : ∀ v : Jsonv, pureNode hashFn (canon v) = pureNode hashFn v := by
    intro v
    induction v using Jsonv.indMem with
    | hp p => rw [canon_prim]
    | ha xs ih =>
      rw [canon_arr, pureNode_arr, pureNode_arr, List.map_map]
      congr 1
      refine List.map_congr_left (fun x hx => ?_)
      simp only [Function.comp_apply]
      rw [pureHash, pureHash, ih x hx]
    | ho es ih =>
      rw [canon_obj, pureNode_obj, pureNode_obj]
      congr 1
      rw [sortObjectEntries_of_sorted _ (sortObjectEntries_sorted _), sortObjectEntries_map,
        List.map_map]
      refine List.map_congr_left (fun e he => ?_)
      simp only [Function.comp_apply]
      rw [pureHash, pureHash, ih e (mem_sortObjectEntries.mp he)]
  intro v
  rw [pureHash, pureHash, hnode v]

/-- Content hashes agree exactly on canonically equal values. -/
theorem pureHash_eq_iff {hashFn : JsStr → JsStr} (hInj : EncInj hashFn) (v1 v2 : Jsonv) :
    pureHash hashFn v1 = pureHash hashFn v2 ↔ canon v1 = canon v2 := by
  constructor
  · exact pureHash_canon hInj v1 v2
  · intro h
    rw [← pureHash_canon_eq hashFn v1, ← pureHash_canon_eq hashFn v2, h]

theorem lookupA_cons {α β : Type} [DecidableEq α] (k : α) (v : β) (l : List (α × β))
    (key : α) : lookupA ((k, v) :: l) key = if k = key then some v else lookupA l key := rfl

theorem remember_hashToValue (S : St) (h : JsStr) (v : Jsonv) :
    (remember S h v).hashToValue = (h, v) :: S.hashToValue := by
  cases v <;> rfl

theorem remember_adapter (S : St) (h : JsStr) (v : Jsonv) :
    (remember S h v).adapter = S.adapter := by
  cases v <;> rfl

theorem remember_versionCache (S : St) (h : JsStr) (v : Jsonv) :
    (remember S h v).versionCache = S.versionCache := by
  cases v <;> rfl

theorem remember_headMemo (S : St) (h : JsStr) (v : Jsonv) :
    (remember S h v).headMemo = S.headMemo := by
  cases v <;> rfl

/-- Cache soundness: every cached hash is the content hash of its value,
and every primitive hint points at a cached entry. -/
def Inv (hashFn : JsStr → JsStr) (S : St) : Prop :=
  (∀ h v, lookupA S.hashToValue h = some v → pureHash hashFn v = h) ∧
  (∀ p h, lookupA S.primitiveHints p = some h →
    h = pureHash hashFn (.prim p) ∧ ∃ w, lookupA S.hashToValue h = some w)

theorem Inv_adapterWrite {hashFn : JsStr → JsStr} {S : St} {h b : JsStr}
    (hS : Inv hashFn S) : Inv hashFn (adapterWrite S h b) := hS

theorem Inv_ite_adapterWrite {hashFn : JsStr → JsStr} {S : St} {h b : JsStr} {c : Prop}
    [Decidable c] (hS : Inv hashFn S) :
    Inv hashFn (if c then adapterWrite S h b else S) := by
  split
  · exact Inv_adapterWrite hS
  · exact hS

theorem ite_adapterWrite_hashToValue (S : St) (h b : JsStr) (c : Prop) [Decidable c] :
    (if c then adapterWrite S h b else S).hashToValue = S.hashToValue := by
  split <;> rfl

theorem ite_adapterWrite_headMemo (S : St) (h b : JsStr) (c : Prop) [Decidable c] :
    (if c then adapterWrite S h b else S).headMemo = S.headMemo := by
  split <;> rfl

theorem ite_adapterWrite_versionCache (S : St) (h b : JsStr) (c : Prop) [Decidable c] :
    (if c then adapterWrite S h b else S).versionCache = S.versionCache := by
  split <;> rfl

theorem ite_adapterWrite_primitiveHints (S : St) (h b : JsStr) (c : Prop) [Decidable c] :
    (if c then adapterWrite S h b else S).primitiveHints = S.primitiveHints := by
  split <;> rfl

theorem Inv_remember {hashFn : JsStr → JsStr} {S : St} {h : JsStr} {v : Jsonv}
    (hS : Inv hashFn S) (hh : pureHash hashFn v = h) : Inv hashFn (remember S h v) := by
  have hmain : ∀ h' v', lookupA ((h, v) :: S.hashToValue) h' = some v' →
      pureHash hashFn v' = h' := by
    intro h' v' hl
    rw [lookupA_cons] at hl
    by_cases hcase : h = h'
    · rw [if_pos hcase] at hl
      cases hl
      rw [hh, hcase]
    · rw [if_neg hcase] at hl
      exact hS.1 h' v' hl
  cases v with
  | prim p =>
    refine ⟨by simp only [remember_hashToValue]; exact hmain, ?_⟩
    intro p' h' hl
    have hhints : (remember S h (.prim p)).primitiveHints = (p, h) :: S.primitiveHints := rfl
    rw [hhints, lookupA_cons] at hl
    rw [remember_hashToValue, lookupA_cons]
    by_cases hp : p = p'
    · rw [if_pos hp] at hl
      cases hl
      refine ⟨by rw [← hh, hp], ?_⟩
      exact ⟨.prim p, by rw [if_pos rfl]⟩
    · rw [if_neg hp] at hl
      obtain ⟨he, w, hw⟩ := hS.2 p' h' hl
      refine ⟨he, ?_⟩
      by_cases hc : h = h'
      · exact ⟨.prim p, by rw [if_pos hc]⟩
      · exact ⟨w, by rw [if_neg hc]; exact hw⟩
  | arr xs =>
    refine ⟨by simp only [remember_hashToValue]; exact hmain, ?_⟩
    intro p' h' hl
    have hhints : (remember S h (.arr xs)).primitiveHints = S.primitiveHints := rfl
    rw [hhints] at hl
    obtain ⟨he, w, hw⟩ := hS.2 p' h' hl
    refine ⟨he, ?_⟩
    rw [remember_hashToValue, lookupA_cons]
    by_cases hc : h = h'
    · exact ⟨.arr xs, by rw [if_pos hc]⟩
    · exact ⟨w, by rw [if_neg hc]; exact hw⟩
  | obj es =>
    refine ⟨by simp only [remember_hashToValue]; exact hmain, ?_⟩
    intro p' h' hl
    have hhints : (remember S h (.obj es)).primitiveHints = S.primitiveHints := rfl
    rw [hhints] at hl
    obtain ⟨he, w, hw⟩ := hS.2 p' h' hl
    refine ⟨he, ?_⟩
    rw [remember_hashToValue, lookupA_cons]
    by_cases hc : h = h'
    · exact ⟨.obj es, by rw [if_pos hc]⟩
    · exact ⟨w, by rw [if_neg hc]; exact hw⟩

/-- Per-value specification of `writeFrozen` over invariant states: the
returned hash is the content hash, the invariant is preserved, and the
content hash resolves in the value cache to a canonically equal value. -/
def WSpec (hashFn : JsStr → JsStr) (v : Jsonv) : Prop :=
  ∀ S : St, Inv hashFn S →
    (writeFrozen hashFn v S).1 = pureHash hashFn v ∧
    Inv hashFn (writeFrozen hashFn v S).2 ∧
    (writeFrozen hashFn v S).2.headMemo = S.headMemo ∧
    (writeFrozen hashFn v S).2.versionCache = S.versionCache ∧
    ∃ w, lookupA (writeFrozen hashFn v S).2.hashToValue (pureHash hashFn v) = some w ∧
      (EncInj hashFn → canon w = canon v)

theorem writeList_spec {hashFn : JsStr → JsStr} :
    ∀ xs : List Jsonv, (∀ x ∈ xs, WSpec hashFn x) →
      ∀ S, Inv hashFn S →
        (writeList hashFn xs S).1 = xs.map (pureHash hashFn) ∧
        Inv hashFn (writeList hashFn xs S).2 ∧
        (writeList hashFn xs S).2.headMemo = S.headMemo ∧
        (writeList hashFn xs S).2.versionCache = S.versionCache := by
  intro xs
  induction xs with
  | nil =>
    intro _ S hS
    rw [writeList]
    exact ⟨rfl, hS, rfl, rfl⟩
  | cons x xs ih =>
    intro hmem S hS
    obtain ⟨hh, hinv, hm1, hv1, -⟩ := hmem x (by simp) S hS
    obtain ⟨hl, hinv2, hm2, hv2⟩ := ih (fun y hy => hmem y (List.mem_cons_of_mem x hy)) _ hinv
    rw [writeList]
    exact ⟨by rw [List.map_cons, hh, hl], hinv2, by rw [hm2, hm1], by rw [hv2, hv1]⟩

theorem writeEntries_spec {hashFn : JsStr → JsStr} :
    ∀ es : List (JsStr × Jsonv), (∀ e ∈ es, WSpec hashFn e.2) →
      ∀ S, Inv hashFn S →
        (writeEntries hashFn es S).1 = es.map (fun e => (e.1, pureHash hashFn e.2)) ∧
        Inv hashFn (writeEntries hashFn es S).2 ∧
        (writeEntries hashFn es S).2.headMemo = S.headMemo ∧
        (writeEntries hashFn es S).2.versionCache = S.versionCache := by
  intro es
  induction es with
  | nil =>
    intro _ S hS
    rw [writeEntries]
    exact ⟨rfl, hS, rfl, rfl⟩
  | cons e es ih =>
    intro hmem S hS
    obtain ⟨hh, hinv, hm1, hv1, -⟩ := hmem e (by simp) S hS
    obtain ⟨hl, hinv2, hm2, hv2⟩ := ih (fun y hy => hmem y (List.mem_cons_of_mem e hy)) _ hinv
    rw [writeEntries]
    exact ⟨by rw [List.map_cons, hh, hl], hinv2, by rw [hm2, hm1], by rw [hv2, hv1]⟩

theorem writeNode_spec {hashFn : JsStr → JsStr} (v : Jsonv)
    (hch : match v with
      | .prim _ => True
      | .arr xs => ∀ x ∈ xs, WSpec hashFn x
      | .obj es => ∀ e ∈ es, WSpec hashFn e.2) :
    ∀ S : St, Inv hashFn S →
      (writeNode hashFn v S).1 = pureHash hashFn v ∧
      Inv hashFn (writeNode hashFn v S).2 ∧
      (writeNode hashFn v S).2.headMemo = S.headMemo ∧
      (writeNode hashFn v S).2.versionCache = S.versionCache ∧
      ∃ w, lookupA (writeNode hashFn v S).2.hashToValue (pureHash hashFn v) = some w ∧
        (EncInj hashFn → canon w = canon v) := by
  intro S hS
  cases v with
  | prim p =>
    have hhash : hashFn (serializeHNode (.prim p)) = pureHash hashFn (.prim p) := by
      rw [pureHash, pureNode_prim]
    refine ⟨?_, ?_, ?_, ?_, ?_⟩
    · rw [writeNode]
      exact hhash
    · rw [writeNode]
      exact Inv_remember (Inv_ite_adapterWrite hS) hhash.symm
    · rw [writeNode]
      simp only [remember_headMemo, ite_adapterWrite_headMemo]
    · rw [writeNode]
      simp only [remember_versionCache, ite_adapterWrite_versionCache]
    · rw [writeNode]
      refine ⟨.prim p, ?_, fun _ => rfl⟩
      simp only [remember_hashToValue, lookupA_cons]
      rw [if_pos hhash]
  | arr xs =>
    obtain ⟨hl, hinv, hm, hv⟩ := writeList_spec xs hch S hS
    have hhash : hashFn (serializeHNode (.arr (writeList hashFn xs S).1)) =
        pureHash hashFn (.arr xs) := by
      rw [hl, pureHash, pureNode_arr]
    refine ⟨?_, ?_, ?_, ?_, ?_⟩
    · rw [writeNode]
      exact hhash
    · rw [writeNode]
      exact Inv_remember (Inv_ite_adapterWrite hinv) hhash.symm
    · rw [writeNode]
      simp only [remember_headMemo, ite_adapterWrite_headMemo]
      exact hm
    · rw [writeNode]
      simp only [remember_versionCache, ite_adapterWrite_versionCache]
      exact hv
    · rw [writeNode]
      refine ⟨.arr xs, ?_, fun _ => rfl⟩
      simp only [remember_hashToValue, lookupA_cons]
      rw [if_pos hhash]
  | obj es =>
    have hch2 : ∀ e ∈ sortObjectEntries es, WSpec hashFn e.2 :=
      fun e he => hch e (mem_sortObjectEntries.mp he)
    obtain ⟨hl, hinv, hm, hv⟩ := writeEntries_spec (sortObjectEntries es) hch2 S hS
    have hhash : hashFn
        (serializeHNode (.obj (writeEntries hashFn (sortObjectEntries es) S).1)) =
        pureHash hashFn (.obj es) := by
      rw [hl, pureHash, pureNode_obj]
    refine ⟨?_, ?_, ?_, ?_, ?_⟩
    · rw [writeNode]
      exact hhash
    · rw [writeNode]
      exact Inv_remember (Inv_ite_adapterWrite hinv) hhash.symm
    · rw [writeNode]
      simp only [remember_headMemo, ite_adapterWrite_headMemo]
      exact hm
    · rw [writeNode]
      simp only [remember_versionCache, ite_adapterWrite_versionCache]
      exact hv
    · rw [writeNode]
      refine ⟨.obj es, ?_, fun _ => rfl⟩
      simp only [remember_hashToValue, lookupA_cons]
      rw [if_pos hhash]

theorem writeFrozen_spec (hashFn : JsStr → JsStr) : ∀ v : Jsonv, WSpec hashFn v := by
  intro v
  induction v using Jsonv.indMem with
  | hp p =>
    intro S hS
    rw [writeFrozen]
    rcases hhint : hintFor S (.prim p) with - | hlist
    · exact writeNode_spec (.prim p) trivial S hS
    · cases hlist with
      | nil => exact writeNode_spec (.prim p) trivial S hS
      | cons c hs =>
        obtain ⟨hh, w, hw⟩ := hS.2 p (c :: hs) hhint
        refine ⟨hh, hS, rfl, rfl, w, by rw [← hh]; exact hw, ?_⟩
        intro hInj
        exact pureHash_canon hInj w _ (by rw [hS.1 _ _ hw, hh])
  | ha xs ih =>
    intro S hS
    rw [writeFrozen]
    exact writeNode_spec (.arr xs) ih S hS
  | ho es ih =>
    intro S hS
    rw [writeFrozen]
    exact writeNode_spec (.obj es) ih S hS

theorem readOS_cached {hashFn : JsStr → JsStr} {fuel : Nat} {h : JsStr} {S : St} {v : Jsonv}
    (hl : lookupA S.hashToValue h = some v) :
    readOS hashFn (fuel + 1) h S = .ok (some v, S) := by
  rw [readOS, hl]

/-- C1: for every JSON value `v` (with a collision-free hash function,
the caller's obligation per spec §3, and any reachable cache state),
`objectStore.read(objectStore.write(v))` succeeds and returns a value
semantically equal to `v`: equal up to recursive object-key reordering
(array order preserved), which is `canon`-equality. -/
theorem C1_write_read_roundtrip (hashFn : JsStr → JsStr) (hInj : EncInj hashFn)
    (v : Jsonv) (S : St) (hS : Inv hashFn S) (fuel : Nat) :
    ∃ w, readOS hashFn (fuel + 1) (write hashFn v S).1 (write hashFn v S).2 =
        .ok (some w, (write hashFn v S).2) ∧ canon w = canon v := by
  have hw2 : write hashFn v S = writeFrozen hashFn v S := by rw [write, freezeJson_id]
  rw [hw2]
  obtain ⟨hh, hinv, -, -, w, hwl, hcanon⟩ := writeFrozen_spec hashFn v S hS
  refine ⟨w, ?_, hcanon hInj⟩
  rw [hh]
  exact readOS_cached hwl

theorem C1_witness :
    EncInj (fun b => b) ∧ Inv (fun b => b) ⟨[], [], [], [], none⟩ ∧
      ∃ w, readOS (fun b => b) (0 + 1)
          (write (fun b => b) (Jsonv.prim .null) ⟨[], [], [], [], none⟩).1
          (write (fun b => b) (Jsonv.prim .null) ⟨[], [], [], [], none⟩).2 =
        .ok (some w, (write (fun b => b) (Jsonv.prim .null) ⟨[], [], [], [], none⟩).2) ∧
        canon w = canon (Jsonv.prim .null) :=
  have h1 : EncInj (fun b => b) := fun _ _ h => h
  have h2 : Inv (fun b => b) ⟨[], [], [], [], none⟩ :=
    ⟨fun _ _ hl => by simp [lookupA] at hl, fun _ _ hl => by simp [lookupA] at hl⟩
  ⟨h1, h2, C1_write_read_roundtrip (fun b => b) h1 (Jsonv.prim .null) _ h2 0⟩

/-- C3: with a hash function injective on produced encodings,
`objectStore.write(v1)` and `objectStore.write(v2)` return the same hash
iff `v1` and `v2` are structurally equal after canonicalization (object
keys sorted, array order preserved) — from any cache states satisfying
the store invariant (in particular semantically equal values collide and
arrays with reordered elements differ). -/
theorem C3_write_hash_iff (hashFn : JsStr → JsStr) (hInj : EncInj hashFn)
    (v1 v2 : Jsonv) (S1 S2 : St) (h1 : Inv hashFn S1) (h2 : Inv hashFn S2) :
    (write hashFn v1 S1).1 = (write hashFn v2 S2).1 ↔ canon v1 = canon v2 := by
  have e1 : (write hashFn v1 S1).1 = pureHash hashFn v1 := by
    rw [write, freezeJson_id]
    exact (writeFrozen_spec hashFn v1 S1 h1).1
  have e2 : (write hashFn v2 S2).1 = pureHash hashFn v2 := by
    rw [write, freezeJson_id]
    exact (writeFrozen_spec hashFn v2 S2 h2).1
  rw [e1, e2]
  exact pureHash_eq_iff hInj v1 v2

theorem C3_witness :
    EncInj (fun b => b) ∧ Inv (fun b => b) ⟨[], [], [], [], none⟩ ∧
      ((write (fun b => b) (Jsonv.arr [.prim .null]) ⟨[], [], [], [], none⟩).1 =
          (write (fun b => b) (Jsonv.arr [.prim .null]) ⟨[], [], [], [], none⟩).1 ↔
        canon (Jsonv.arr [.prim .null]) = canon (Jsonv.arr [.prim .null])) :=
  have h1 : EncInj (fun b => b) := fun _ _ h => h
  have h2 : Inv (fun b => b) ⟨[], [], [], [], none⟩ :=
    ⟨fun _ _ hl => by simp [lookupA] at hl, fun _ _ hl => by simp [lookupA] at hl⟩
  ⟨h1, h2, C3_write_hash_iff (fun b => b) h1 _ _ _ _ h2 h2⟩

/-- C7 counterexample: the store sorts keys with the JS `<` comparator,
which is UTF-16 code-unit order, not code-point order.  For the
supplementary-plane key `U+10000` = `[55296, 56320]` and the BMP key
`U+E000` = `[57344]`, the store places `U+10000` first although its code
point is larger — the entries of the encoded node are not in code-point
order, contradicting the claim at this concrete object. -/
theorem C7_counterexample :
    sortObjectEntries [([57344], (0 : Nat)), ([55296, 56320], 1)] =
      [([55296, 56320], 1), ([57344], 0)] ∧
    jsLt (utf16CodePoints [57344]) (utf16CodePoints [55296, 56320]) = true := by
  decide

/-- C7 amended: the entries of every object node written by the object
store are sorted by UTF-16 code-unit lexicographic order of the keys
(JS string `<`), which agrees with code-point order except when a
supplementary-plane key meets a key starting in `U+E000`–`U+FFFF`. -/
theorem C7_entries_sorted_code_units (hashFn : JsStr → JsStr) (es : List (JsStr × Jsonv)) :
    ∃ l, pureNode hashFn (.obj es) = .obj l ∧
      l.Pairwise (fun a b => jsLt b.1 a.1 = false) := by
  refine ⟨_, pureNode_obj hashFn es, ?_⟩
  have htrans : IsTrans (JsStr × Jsonv) keyLe :=
    ⟨fun a b c hab hbc => jsLt_le_trans a.1 b.1 c.1 hab hbc⟩
  have hs : (sortObjectEntries es).Pairwise keyLe := by
    have hch := sortObjectEntries_sorted (α := Jsonv) es
    exact @List.chain'_iff_pairwise _ keyLe htrans _ |>.mp hch
  exact hs.map _ (fun a b hab => hab)

/-- C9 counterexample: the freeze step applied to an already deeply
frozen value (`freezeJson` output) returns a freshly allocated object
for composites — here the empty array — rather than the value itself:
the allocation flag is `true`. -/
theorem C9_counterexample :
    freezeJsonAlloc (freezeJson (Jsonv.arr [])) = (Jsonv.arr [], true) := by
  have h : freezeJson (Jsonv.arr []) = Jsonv.arr [] := by
    rw [freezeJson_arr]
    rfl
  rw [h, freezeJsonAlloc, h]

/-- C9 amended: the freeze step is the identity only up to structural
equality — it is structurally idempotent and a structural no-op, and it
returns its argument itself exactly for primitives, while arrays and
objects are rebuilt as fresh copies even when already deeply frozen (so
`objectStore.write`'s first step passes a structurally equal copy on). -/
theorem C9_freeze_structural (v : Jsonv) :
    freezeJson (freezeJson v) = freezeJson v ∧ freezeJson v = v ∧
      ((freezeJsonAlloc v).2 = false ↔ ∃ p, v = .prim p) := by
  refine ⟨by rw [freezeJson_id, freezeJson_id], freezeJson_id v, ?_⟩
  cases v with
  | prim p => simp [freezeJsonAlloc]
  | arr xs => simp [freezeJsonAlloc]
  | obj es => simp [freezeJsonAlloc]

/-- `HEAD_KEY = "__hstore_head__"`, as code units. -/
def HEAD_KEY : JsStr := [95, 95, 104, 115, 116, 111, 114, 101, 95, 104, 101, 97, 100, 95, 95]

/-- The code units of the field name `"value"`. -/
def valueKey : JsStr := [118, 97, 108, 117, 101]

/-- The code units of the field name `"previous"`. -/
def previousKey : JsStr := [112, 114, 101, 118, 105, 111, 117, 115]

/-- The code units of the field name `"timestamp"`. -/
def timestampKey : JsStr := [116, 105, 109, 101, 115, 116, 97, 109, 112]

/-- The code units of the field name `"head"`. -/
def headFieldKey : JsStr := [104, 101, 97, 100]

/-- `VersionBlock`. -/
structure VersionBlock where
  value : JsStr
  previous : Option JsStr
  timestamp : Int

/-- `encodeVersionBlock`: `JSON.stringify({value, previous, timestamp})`
in the object literal's insertion order. -/
def encodeVersionBlock (b : VersionBlock) : JsStr :=
  stringifyJson (.obj [
    (valueKey, .prim (.str b.value)),
    (previousKey, match b.previous with
      | some p => .prim (.str p)
      | none => .prim .null),
    (timestampKey, .prim (.num b.timestamp))])

/-- `decodeVersionBlock`: bare `JSON.parse` with an unchecked cast;
`none` models the thrown SyntaxError on undecodable bytes. -/
def decodeVersionBlock (bytes : JsStr) : Option Jsonv := jsonParse bytes

/-- JS property read `record[key]` on a parsed JSON value (`undefined`
on non-objects and missing keys). -/
def jget (j : Jsonv) (k : JsStr) : Option Jsonv :=
  match j with
  | .obj es => lookupA es k
  | _ => none

/-- `toHeadRecord` composed with `encodeHead`: `JSON.stringify({head})`. -/
def encodeHead (h : Option JsStr) : JsStr :=
  stringifyJson (.obj [(headFieldKey,
    match h with
    | some s => .prim (.str s)
    | none => .prim .null)])

/-- `decodeHead`: parse the bytes and return `data.head` when it is a
string, `null` otherwise; parse failures are caught and give `null`. -/
def decodeHead (bytes : JsStr) : Option JsStr :=
  match jsonParse bytes with
  | none => none
  | some j =>
    match jget j headFieldKey with
    | some (.prim (.str s)) => some s
    | _ => none

/-- `isVersionBlock`: the runtime shape guard (`timestamp` a number,
`previous` a string or null, `value` a string). -/
def isVersionBlock (j : Jsonv) : Bool :=
  (match jget j timestampKey with
    | some (.prim (.num _)) => true
    | _ => false) &&
  (match jget j previousKey with
    | some (.prim (.str _)) => true
    | some (.prim .null) => true
    | _ => false) &&
  (match jget j valueKey with
    | some (.prim (.str _)) => true
    | _ => false)

/-- `parsed.value` after the shape guard. -/
def vbValue (j : Jsonv) : JsStr :=
  match jget j valueKey with
  | some (.prim (.str s)) => s
  | _ => []

/-- `parsed.previous` after the shape guard. -/
def vbPrevious (j : Jsonv) : Option JsStr :=
  match jget j previousKey with
  | some (.prim (.str s)) => some s
  | _ => none

/-- `parsed.timestamp` after the shape guard. -/
def vbTimestamp (j : Jsonv) : Int :=
  match jget j timestampKey with
  | some (.prim (.num t)) => t
  | _ => 0

/-- `rememberVersion`: cache the materialized version. -/
def rememberVersion (S : St) (h : JsStr) (prev : Option JsStr) (ts : Int) (value : Jsonv) :
    StateVersion × St :=
  let version : StateVersion := ⟨h, value, prev, ts⟩
  (version, { S with versionCache := (h, version) :: S.versionCache })

/-- `loadVersion`: version cache, adapter fetch, `JSON.parse` (throwing
on undecodable bytes), shape guard, value load, remember. -/
def loadVersion (hashFn : JsStr → JsStr) (fuel : Nat) (h : JsStr) (S : St) :
    Except Unit (Option StateVersion × St) :=
  match lookupA S.versionCache h with
  | some cached => .ok (some cached, S)
  | none =>
    match lookupA S.adapter h with
    | none => .ok (none, S)
    | some bytes =>
      match decodeVersionBlock bytes with
      | none => .error ()
      | some parsed =>
        if isVersionBlock parsed then
          match readOS hashFn fuel (vbValue parsed) S with
          | .error e => .error e
          | .ok (none, S1) => .ok (none, S1)
          | .ok (some value, S1) =>
            let r := rememberVersion S1 h (vbPrevious parsed) (vbTimestamp parsed) value
            .ok (some r.1, r.2)
        else .ok (none, S)

/-- `head()`: consult `headMemo` (JS truthiness: both `null` and the
empty string give `null`), else load the pointed version. -/
def head (hashFn : JsStr → JsStr) (fuel : Nat) (S : St) :
    Except Unit (Option StateVersion × St) :=
  match S.headMemo with
  | some (c :: t) => loadVersion hashFn fuel (c :: t) S
  | _ => .ok (none, S)

/-- `get(hash)`. -/
def get (hashFn : JsStr → JsStr) (fuel : Nat) (h : JsStr) (S : St) :
    Except Unit (Option StateVersion × St) :=
  loadVersion hashFn fuel h S

/-- `writeVersion`: hash the encoded block, write it unless the version
cache knows the hash, remember the resolved version. -/
def writeVersion (hashFn : JsStr → JsStr) (block : VersionBlock) (value : Jsonv) (S : St) :
    StateVersion × St :=
  let bytes := encodeVersionBlock block
  let h := hashFn bytes
  let S1 := if (lookupA S.versionCache h).isNone then adapterWrite S h bytes else S
  rememberVersion S1 h block.previous block.timestamp value

/-- `persistHead`: overwrite the head record and memoise the hash. -/
def persistHead (S : St) (h : Option JsStr) : St :=
  { adapterWrite S HEAD_KEY (encodeHead h) with headMemo := h }

/-- `commit(input)`: validate through the schema (a rejection is a
thrown error), write the value DAG, recover the frozen snapshot, build
and persist the version block, advance the head.  `now` stands for
`Date.now()`. -/
def commit (hashFn : JsStr → JsStr) (schema : Jsonv → Option Jsonv) (fuel : Nat) (now : Int)
    (input : Jsonv) (S : St) : Except Unit (StateVersion × St) :=
  match schema input with
  | none => .error ()
  | some parsed =>
    let r1 := write hashFn parsed S
    match readOS hashFn fuel r1.1 r1.2 with
    | .error e => .error e
    | .ok (cachedValue, S2) =>
      let frozenValue := cachedValue.getD (freezeJson parsed)
      let previous := S2.headMemo
      let block : VersionBlock := ⟨r1.1, previous, now⟩
      let r2 := writeVersion hashFn block frozenValue S2
      let S3 := persistHead r2.2 (some r2.1.hash)
      .ok (r2.1, S3)

/-- `createStore`'s head initialization: probe the head record; seed it
when absent; repair it when its decoded head is not a string. -/
def initStore (adapter0 : List (JsStr × JsStr)) : St :=
  let S0 : St := ⟨adapter0, [], [], [], none⟩
  match lookupA adapter0 HEAD_KEY with
  | none => { adapterWrite S0 HEAD_KEY (encodeHead none) with headMemo := none }
  | some stored =>
    match decodeHead stored with
    | none => { adapterWrite S0 HEAD_KEY (encodeHead none) with headMemo := none }
    | some h => { S0 with headMemo := some h }

theorem persistHead_versionCache (S : St) (h : Option JsStr) :
    (persistHead S h).versionCache = S.versionCache := rfl

theorem persistHead_headMemo (S : St) (h : Option JsStr) :
    (persistHead S h).headMemo = h := rfl

theorem Inv_persistHead {hashFn : JsStr → JsStr} {S : St} {h : Option JsStr}
    (hS : Inv hashFn S) : Inv hashFn (persistHead S h) := hS

theorem Inv_rememberVersion {hashFn : JsStr → JsStr} {S : St} {h : JsStr}
    {prev : Option JsStr} {ts : Int} {value : Jsonv} (hS : Inv hashFn S) :
    Inv hashFn (rememberVersion S h prev ts value).2 := hS

theorem Inv_writeVersion {hashFn : JsStr → JsStr} {block : VersionBlock} {value : Jsonv}
    {S : St} (hS : Inv hashFn S) : Inv hashFn (writeVersion hashFn block value S).2 := by
  rw [writeVersion]
  exact Inv_rememberVersion (by
    split
    · exact Inv_adapterWrite hS
    · exact hS)

/-- One successful `commit` from an invariant state: the version it
returns links to the old head, carries the validated value up to
canonical equality, is memoised as the new head and cached in the
version cache at the front. -/
theorem commit_ok (hashFn : JsStr → JsStr) (schema : Jsonv → Option Jsonv)
    (hInj : EncInj hashFn) (fuel : Nat) (now : Int) (input parsed : Jsonv) (S : St)
    (hS : Inv hashFn S) (hschema : schema input = some parsed) :
    ∃ ver S', commit hashFn schema (fuel + 1) now input S = .ok (ver, S') ∧
      ver.previous = S.headMemo ∧
      ver.timestamp = now ∧
      canon ver.value = canon parsed ∧
      ver.hash = hashFn (encodeVersionBlock ⟨pureHash hashFn parsed, S.headMemo, now⟩) ∧
      S'.headMemo = some ver.hash ∧
      lookupA S'.versionCache ver.hash = some ver ∧
      Inv hashFn S' := by
  have hw2 : write hashFn parsed S = writeFrozen hashFn parsed S := by
    rw [write, freezeJson_id]
  obtain ⟨hh, hinv, hm, hv, w, hwl, hcanon⟩ := writeFrozen_spec hashFn parsed S hS
  have hread : readOS hashFn (fuel + 1) (write hashFn parsed S).1 (write hashFn parsed S).2 =
      .ok (some w, (write hashFn parsed S).2) := by
    rw [hw2, hh]
    exact readOS_cached hwl
  rw [commit, hschema]
  simp only [hread]
  rw [hw2, hh]
  refine ⟨_, _, rfl, ?_, rfl, hcanon hInj, ?_, ?_, ?_, ?_⟩
  · exact hm
  · rw [writeVersion]
    simp only [rememberVersion]
    rw [hm]
  · rw [persistHead_headMemo]
  · rw [persistHead_versionCache, writeVersion]
    simp only [rememberVersion]
    rw [lookupA_cons, if_pos rfl, hm]
  · exact Inv_persistHead (Inv_writeVersion hinv)

/-- N successive commits, each with its own `Date.now()` reading. -/
def commitChain (hashFn : JsStr → JsStr) (schema : Jsonv → Option Jsonv) (fuel : Nat) :
    List (Int × Jsonv) → St → Except Unit (List StateVersion × St)
  | [], S => .ok ([], S)
  | (now, v) :: rest, S =>
    match commit hashFn schema fuel now v S with
    | .error e => .error e
    | .ok (ver, S1) =>
      match commitChain hashFn schema fuel rest S1 with
      | .error e => .error e
      | .ok (vers, S2) => .ok (ver :: vers, S2)

theorem commitChain_spec (hashFn : JsStr → JsStr) (schema : Jsonv → Option Jsonv)
    (hInj : EncInj hashFn) (fuel : Nat) :
    ∀ (ivs : List (Int × Jsonv)) (S : St), Inv hashFn S →
      (∀ x ∈ ivs, (schema x.2).isSome = true) →
      ∃ vers S', commitChain hashFn schema (fuel + 1) ivs S = .ok (vers, S') ∧
        Inv hashFn S' ∧
        List.Forall₂ (fun iv ver => ver.timestamp = iv.1 ∧
          ∃ p, schema iv.2 = some p ∧ canon ver.value = canon p) ivs vers ∧
        (∀ ver, vers.head? = some ver → ver.previous = S.headMemo) ∧
        List.Chain' (fun a b => b.previous = some a.hash) vers ∧
        (∀ ver ∈ vers, ∃ b, ver.hash = hashFn b) ∧
        (match vers.getLast? with
          | some ver => S'.headMemo = some ver.hash ∧
              lookupA S'.versionCache ver.hash = some ver
          | none => S' = S) := by
  intro ivs
  induction ivs with
  | nil =>
    intro S hS _
    exact ⟨[], S, rfl, hS, .nil, by simp, by simp, by simp, rfl⟩
  | cons iv rest ih =>
    intro S hS hschema
    obtain ⟨parsed, hparsed⟩ :=
      Option.isSome_iff_exists.mp (hschema iv (by simp))
    obtain ⟨ver, S1, hcommit, hprev, hts, hcanon, hhash, hmemo1, hcache1, hinv1⟩ :=
      commit_ok hashFn schema hInj fuel iv.1 iv.2 parsed S hS hparsed
    obtain ⟨vers, S2, hchain, hinv2, hforall, hheadprev, hchain2, hrange, hlast⟩ :=
      ih S1 hinv1 (fun x hx => hschema x (List.mem_cons_of_mem iv hx))
    refine ⟨ver :: vers, S2, ?_, hinv2, ?_, ?_, ?_, ?_, ?_⟩
    · rw [commitChain]
      simp only [hcommit, hchain]
    · exact .cons ⟨hts, parsed, hparsed, hcanon⟩ hforall
    · intro v0 hv0
      simp only [List.head?_cons, Option.some.injEq] at hv0
      rw [← hv0]
      exact hprev
    · rw [List.chain'_cons']
      refine ⟨?_, hchain2⟩
      intro y hy
      have := hheadprev y hy
      rw [this, hmemo1]
    · intro v0 hv0
      rcases List.mem_cons.mp hv0 with rfl | hv0
      · exact ⟨_, hhash⟩
      · exact hrange v0 hv0
    · cases hvers : vers.getLast? with
      | some last =>
        rw [List.getLast?_cons, hvers]  -- may need adjusting
        rw [hvers] at hlast
        exact hlast
      | none =>
        have : vers = [] := by
          cases vers with
          | nil => rfl
          | cons a l => simp [List.getLast?] at hvers  -- contradiction
        subst this
        rw [hvers] at hlast
        simp only [List.getLast?_singleton]
        rw [hlast]
        exact ⟨hmemo1, hcache1⟩

/-- C2: from a fresh store (head null, sound caches, collision-free and
nonempty-output hash function), N successive successful commits return
versions whose `previous` fields link each commit to the store's head
immediately before it — the first to null — and after the chain `head()`
returns the last returned version itself (same hash, value semantically
equal to its validated input, timestamp as passed), so following
`previous` from `head()` visits the commits in reverse order down to
null. -/
theorem C2_commit_head_chain (hashFn : JsStr → JsStr) (schema : Jsonv → Option Jsonv)
    (hInj : EncInj hashFn) (hne : ∀ b : JsStr, hashFn b ≠ []) (fuel : Nat)
    (ivs : List (Int × Jsonv)) (S : St) (hS : Inv hashFn S) (hmemo : S.headMemo = none)
    (hschema : ∀ x ∈ ivs, (schema x.2).isSome = true) :
    ∃ vers S', commitChain hashFn schema (fuel + 1) ivs S = .ok (vers, S') ∧
      vers.length = ivs.length ∧
      List.Forall₂ (fun iv ver => ver.timestamp = iv.1 ∧
        ∃ p, schema iv.2 = some p ∧ canon ver.value = canon p) ivs vers ∧
      (∀ ver, vers.head? = some ver → ver.previous = none) ∧
      List.Chain' (fun a b => b.previous = some a.hash) vers ∧
      (∀ ver, vers.getLast? = some ver → head hashFn (fuel + 1) S' = .ok (some ver, S')) := by
  obtain ⟨vers, S', hcc, hinv, hforall, hheadprev, hchain, hrange, hlast⟩ :=
    commitChain_spec hashFn schema hInj fuel ivs S hS hschema
  refine ⟨vers, S', hcc, hforall.length_eq.symm, hforall, ?_, hchain, ?_⟩
  · intro ver hv
    rw [hheadprev ver hv, hmemo]
  · intro ver hver
    rw [hver] at hlast
    obtain ⟨hm, hc⟩ := hlast
    obtain ⟨b, hb⟩ := hrange ver (List.mem_of_mem_getLast? hver)
    cases hh : ver.hash with
    | nil => exact absurd (hb ▸ hh) (by simpa using hne b)
    | cons c t =>
      rw [hh] at hm hc
      rw [head, hm]
      show loadVersion hashFn (fuel + 1) (c :: t) S' = .ok (some ver, S')
      rw [loadVersion.eq_def, hc]

theorem C2_witness :
    EncInj (fun b => 104 :: b) ∧ (∀ b : JsStr, (fun b => 104 :: b) b ≠ []) ∧
      Inv (fun b => 104 :: b) ⟨[], [], [], [], none⟩ ∧
      St.headMemo ⟨[], [], [], [], none⟩ = none ∧
      (∀ x ∈ ([(0, Jsonv.prim .null)] : List (Int × Jsonv)), ((fun v => some v) x.2).isSome = true) ∧
      ∃ vers S', commitChain (fun b => 104 :: b) (fun v => some v) (0 + 1)
          [(0, Jsonv.prim .null)] ⟨[], [], [], [], none⟩ = .ok (vers, S') ∧
        vers.length = [((0 : Int), Jsonv.prim .null)].length ∧
        List.Forall₂ (fun iv ver => ver.timestamp = iv.1 ∧
          ∃ p, (fun v => some v) iv.2 = some p ∧ canon ver.value = canon p)
          [(0, Jsonv.prim .null)] vers ∧
        (∀ ver, vers.head? = some ver → ver.previous = none) ∧
        List.Chain' (fun a b => b.previous = some a.hash) vers ∧
        (∀ ver, vers.getLast? = some ver →
          head (fun b => 104 :: b) (0 + 1) S' = .ok (some ver, S')) :=
  have h1 : EncInj (fun b => 104 :: b) := fun _ _ h => by simpa using h
  have h2 : ∀ b : JsStr, (fun b => 104 :: b) b ≠ [] := fun b => by simp
  have h3 : Inv (fun b => 104 :: b) ⟨[], [], [], [], none⟩ :=
    ⟨fun _ _ hl => by simp [lookupA] at hl, fun _ _ hl => by simp [lookupA] at hl⟩
  ⟨h1, h2, h3, rfl, fun x _ => rfl,
    C2_commit_head_chain (fun b => 104 :: b) (fun v => some v) h1 h2 0
      [(0, Jsonv.prim .null)] ⟨[], [], [], [], none⟩ h3 rfl (fun x _ => rfl)⟩

/-- One cascade layer: its hash-keyed block map. -/
abbrev Layer := List (JsStr × JsStr)

/-- The `read` of `cascadeAdapter.ts`: probe the fastest layer; on a
miss delegate to the remaining (slower) layers, and on their hit write
the block through to this layer ("hydrate up") before returning it.
`freezeBlock`'s defensive byte copy is the identity on byte values. -/
def cascadeRead (h : JsStr) : List Layer → Option JsStr × List Layer
  | [] => (none, [])
  | L :: Ls =>
    match lookupA L h with
    | some bytes => (some bytes, L :: Ls)
    | none =>
      let r := cascadeRead h Ls
      match r.1 with
      | none => (none, L :: r.2)
      | some bytes => (some bytes, ((h, bytes) :: L) :: r.2)

/-- The `write` of `cascadeAdapter.ts`: fan out to every layer. -/
def cascadeWrite (h bytes : JsStr) (layers : List Layer) : List Layer :=
  layers.map (fun L => (h, bytes) :: L)

/-- C4: `read(h)` probes the layers in declared order.  If no layer has
a block for `h` it returns absent and leaves every layer unchanged; if
the layers split as `pre ++ L :: post` with every layer of `pre`
missing `h` and `L` holding `bytes` (the first hit), it returns exactly
those bytes and writes the block to precisely the layers of `pre`,
leaving the hit layer and all deeper layers untouched. -/
theorem C4_cascade_read (h : JsStr) :
    (∀ layers : List Layer, (∀ L ∈ layers, lookupA L h = none) →
      cascadeRead h layers = (none, layers)) ∧
    (∀ (pre : List Layer) (L : Layer) (post : List Layer) (bytes : JsStr),
      (∀ P ∈ pre, lookupA P h = none) → lookupA L h = some bytes →
      cascadeRead h (pre ++ L :: post) =
        (some bytes, pre.map (fun P => (h, bytes) :: P) ++ L :: post)) := by
  constructor
  · intro layers
    induction layers with
    | nil => intro _; rfl
    | cons L Ls ih =>
      intro hmiss
      rw [cascadeRead, hmiss L (by simp), ih (fun P hP => hmiss P (List.mem_cons_of_mem L hP))]
  · intro pre
    induction pre with
    | nil =>
      intro L post bytes _ hhit
      rw [List.nil_append, cascadeRead, hhit, List.map_nil, List.nil_append]
    | cons P pre ih =>
      intro L post bytes hmiss hhit
      rw [List.cons_append, cascadeRead, hmiss P (by simp),
        ih L post bytes (fun Q hQ => hmiss Q (List.mem_cons_of_mem P hQ)) hhit]
      simp

theorem C4_witness :
    (∀ L ∈ ([[], []] : List Layer), lookupA L [104] = none) ∧
    (∀ P ∈ ([[]] : List Layer), lookupA P [104] = none) ∧
    lookupA ([([104], [9])] : Layer) [104] = some [9] ∧
    cascadeRead [104] [[], []] = (none, [[], []]) ∧
    cascadeRead [104] (([[]] : List Layer) ++ [([104], [9])] :: []) =
      (some [9], ([[]] : List Layer).map (fun P => ([104], [9]) :: P) ++ [([104], [9])] :: []) :=
  have hm : ∀ L ∈ ([[], []] : List Layer), lookupA L [104] = none := by decide
  have hm2 : ∀ P ∈ ([[]] : List Layer), lookupA P [104] = none := by decide
  have hh : lookupA ([([104], [9])] : Layer) [104] = some [9] := by decide
  ⟨hm, hm2, hh, (C4_cascade_read [104]).1 [[], []] hm,
    (C4_cascade_read [104]).2 [[]] [([104], [9])] [] [9] hm2 hh⟩

/-- C5 counterexample: when the version block's bytes are not decodable
JSON (here the single byte `"x"`), `get` does not return null — the bare
`JSON.parse` in `decodeVersionBlock` throws, so the call rejects
(`Except.error`), contradicting the claim at this input. -/
theorem C5_counterexample :
    get (fun b => b) 1 [107] ⟨[([107], [120])], [], [], [], none⟩ = .error () := rfl

/-- C5 amended: `get(h)` returns null without raising when the block is
absent, when its bytes decode to JSON that fails the version-block shape
guard, or when the guarded block's value hash dangles; in each of these
cases the store state is returned unchanged.  Undecodable (non-JSON)
bytes instead raise an error. -/
theorem C5_get_failure_modes (hashFn : JsStr → JsStr) (fuel : Nat) (S : St) (h : JsStr)
    (hvc : lookupA S.versionCache h = none) :
    (lookupA S.adapter h = none → get hashFn fuel h S = .ok (none, S)) ∧
    (∀ bytes j, lookupA S.adapter h = some bytes → jsonParse bytes = some j →
      isVersionBlock j = false → get hashFn fuel h S = .ok (none, S)) ∧
    (∀ bytes j, lookupA S.adapter h = some bytes → jsonParse bytes = some j →
      isVersionBlock j = true → lookupA S.hashToValue (vbValue j) = none →
      lookupA S.adapter (vbValue j) = none →
      get hashFn (fuel + 1) h S = .ok (none, S)) := by
  refine ⟨?_, ?_, ?_⟩
  · intro hab
    rw [get, loadVersion.eq_def, hvc, hab]
  · intro bytes j hab hparse hguard
    have hdec : decodeVersionBlock bytes = some j := hparse
    simp [get, loadVersion, hvc, hab, hdec, hguard]
  · intro bytes j hab hparse hguard hmv hav
    have hdec : decodeVersionBlock bytes = some j := hparse
    have hr : readOS hashFn (fuel + 1) (vbValue j) S = .ok (none, S) := by
      rw [readOS, hmv, hav]
    simp [get, loadVersion, hvc, hab, hdec, hguard, hr]

theorem C5_witness :
    lookupA (St.versionCache ⟨[([104],
        [123, 34, 118, 97, 108, 117, 101, 34, 58, 34, 109, 34, 44,
         34, 112, 114, 101, 118, 105, 111, 117, 115, 34, 58, 110, 117, 108, 108, 44,
         34, 116, 105, 109, 101, 115, 116, 97, 109, 112, 34, 58, 48, 125])],
      [], [], [], none⟩) [104] = none ∧
    get (fun b => b) (0 + 1) [104] ⟨[([104],
        [123, 34, 118, 97, 108, 117, 101, 34, 58, 34, 109, 34, 44,
         34, 112, 114, 101, 118, 105, 111, 117, 115, 34, 58, 110, 117, 108, 108, 44,
         34, 116, 105, 109, 101, 115, 116, 97, 109, 112, 34, 58, 48, 125])],
      [], [], [], none⟩ = .ok (none, ⟨[([104],
        [123, 34, 118, 97, 108, 117, 101, 34, 58, 34, 109, 34, 44,
         34, 112, 114, 101, 118, 105, 111, 117, 115, 34, 58, 110, 117, 108, 108, 44,
         34, 116, 105, 109, 101, 115, 116, 97, 109, 112, 34, 58, 48, 125])],
      [], [], [], none⟩) :=
  have hvc : lookupA (St.versionCache ⟨[([104],
      [123, 34, 118, 97, 108, 117, 101, 34, 58, 34, 109, 34, 44,
       34, 112, 114, 101, 118, 105, 111, 117, 115, 34, 58, 110, 117, 108, 108, 44,
       34, 116, 105, 109, 101, 115, 116, 97, 109, 112, 34, 58, 48, 125])],
      [], [], [], none⟩) [104] = none := rfl
  ⟨hvc, (C5_get_failure_modes (fun b => b) 0 _ [104] hvc).2.2
    _ (.obj [(valueKey, .prim (.str [109])), (previousKey, .prim .null),
      (timestampKey, .prim (.num 0))])
    rfl rfl rfl rfl rfl⟩

/-- `createStore` never seeds the object-store caches, in any of the
head-initialization branches. -/
theorem Inv_initStore (hashFn : JsStr → JsStr) (A : List (JsStr × JsStr)) :
    Inv hashFn (initStore A) := by
  have h12 : (initStore A).hashToValue = [] ∧ (initStore A).primitiveHints = [] := by
    cases hA : lookupA A HEAD_KEY with
    | none =>
      have hS : initStore A =
          { adapterWrite ⟨A, [], [], [], none⟩ HEAD_KEY (encodeHead none) with
            headMemo := none } := by
        simp only [initStore, hA]
      rw [hS]
      exact ⟨rfl, rfl⟩
    | some bytes =>
      cases hd : decodeHead bytes with
      | none =>
        have hS : initStore A =
            { adapterWrite ⟨A, [], [], [], none⟩ HEAD_KEY (encodeHead none) with
              headMemo := none } := by
          simp only [initStore, hA, hd]
        rw [hS]
        exact ⟨rfl, rfl⟩
      | some s =>
        have hS : initStore A = { (⟨A, [], [], [], none⟩ : St) with headMemo := some s } := by
          simp only [initStore, hA, hd]
        rw [hS]
        exact ⟨rfl, rfl⟩
  obtain ⟨h1, h2⟩ := h12
  refine ⟨fun h v hl => ?_, fun p h hl => ?_⟩
  · rw [h1] at hl
    simp [lookupA] at hl
  · rw [h2] at hl
    simp [lookupA] at hl

/-- C6: `createStore`'s head initialization.  When the head record is
absent it writes `encodeHead none` (`{"head":null}`), leaves `headMemo`
null, and `head()` returns null.  When the record is present but its
decoded head field is not a string (e.g. the integer 42,
`decodeHead = none`), it overwrites the record with `{"head":null}`,
`head()` returns null, and the next successful commit produces a
version whose `previous` is null. -/
theorem C6_init_head_repair (hashFn : JsStr → JsStr) (schema : Jsonv → Option Jsonv)
    (hInj : EncInj hashFn) (fuel : Nat) (A : List (JsStr × JsStr)) :
    (lookupA A HEAD_KEY = none →
      (initStore A).headMemo = none ∧
      lookupA (initStore A).adapter HEAD_KEY = some (encodeHead none) ∧
      head hashFn fuel (initStore A) = .ok (none, initStore A)) ∧
    (∀ bytes, lookupA A HEAD_KEY = some bytes → decodeHead bytes = none →
      (initStore A).headMemo = none ∧
      lookupA (initStore A).adapter HEAD_KEY = some (encodeHead none) ∧
      head hashFn fuel (initStore A) = .ok (none, initStore A) ∧
      ∀ now input parsed, schema input = some parsed →
        ∃ ver S', commit hashFn schema (fuel + 1) now input (initStore A) = .ok (ver, S') ∧
          ver.previous = none) := by
  constructor
  · intro ha
    have hS : initStore A =
        { adapterWrite ⟨A, [], [], [], none⟩ HEAD_KEY (encodeHead none) with
          headMemo := none } := by
      simp only [initStore, ha]
    refine ⟨by rw [hS], ?_, ?_⟩
    · rw [hS]
      show lookupA ((HEAD_KEY, encodeHead none) :: A) HEAD_KEY = some (encodeHead none)
      rw [lookupA_cons, if_pos rfl]
    · rw [head, hS]
  · intro bytes hb hd
    have hS : initStore A =
        { adapterWrite ⟨A, [], [], [], none⟩ HEAD_KEY (encodeHead none) with
          headMemo := none } := by
      simp only [initStore, hb, hd]
    refine ⟨by rw [hS], ?_, ?_, ?_⟩
    · rw [hS]
      show lookupA ((HEAD_KEY, encodeHead none) :: A) HEAD_KEY = some (encodeHead none)
      rw [lookupA_cons, if_pos rfl]
    · rw [head, hS]
    · intro now input parsed hschema
      obtain ⟨ver, S', hc, hprev, _⟩ :=
        commit_ok hashFn schema hInj fuel now input parsed (initStore A)
          (Inv_initStore hashFn A) hschema
      exact ⟨ver, S', hc, by rw [hprev, hS]⟩

theorem C6_witness :
    lookupA [(HEAD_KEY, [123, 34, 104, 101, 97, 100, 34, 58, 52, 50, 125])] HEAD_KEY =
      some [123, 34, 104, 101, 97, 100, 34, 58, 52, 50, 125] ∧
    decodeHead [123, 34, 104, 101, 97, 100, 34, 58, 52, 50, 125] = none ∧
    (initStore [(HEAD_KEY, [123, 34, 104, 101, 97, 100, 34, 58, 52, 50, 125])]).headMemo =
      none ∧
    lookupA (initStore
        [(HEAD_KEY, [123, 34, 104, 101, 97, 100, 34, 58, 52, 50, 125])]).adapter HEAD_KEY =
      some (encodeHead none) ∧
    head (fun b => b) 0
      (initStore [(HEAD_KEY, [123, 34, 104, 101, 97, 100, 34, 58, 52, 50, 125])]) =
      .ok (none, initStore [(HEAD_KEY, [123, 34, 104, 101, 97, 100, 34, 58, 52, 50, 125])]) ∧
    ∃ ver S', commit (fun b => b) (fun v => some v) (0 + 1) 7 (Jsonv.prim .null)
        (initStore [(HEAD_KEY, [123, 34, 104, 101, 97, 100, 34, 58, 52, 50, 125])]) =
        .ok (ver, S') ∧ ver.previous = none :=
  have h := (C6_init_head_repair (fun b => b) (fun v => some v) (fun _ _ hh => hh) 0
    [(HEAD_KEY, [123, 34, 104, 101, 97, 100, 34, 58, 52, 50, 125])]).2
    [123, 34, 104, 101, 97, 100, 34, 58, 52, 50, 125] rfl rfl
  ⟨rfl, rfl, h.1, h.2.1, h.2.2.1, h.2.2.2 7 (.prim .null) (.prim .null) rfl⟩

/-- C10: `get(HEAD_KEY)` on any store whose adapter holds a head record
(either form) under the reserved key, and whose version cache does not
shadow it, returns null: the head record's bytes decode as JSON but
fail the version-block shape guard (no numeric `timestamp` field), so
the reserved key is never observable as a version. -/
theorem C10_head_key_not_version (hashFn : JsStr → JsStr) (fuel : Nat) (S : St)
    (x : Option JsStr)
    (hvc : lookupA S.versionCache HEAD_KEY = none)
    (hab : lookupA S.adapter HEAD_KEY = some (encodeHead x)) :
    get hashFn fuel HEAD_KEY S = .ok (none, S) := by
  rcases x with _ | s
  · have he : encodeHead none = stringifyJson (.obj [(headFieldKey, Jsonv.prim .null)]) := by
      rw [encodeHead.eq_def]
    have hnd : nodupKeys (Jsonv.obj [(headFieldKey, Jsonv.prim .null)]) = true := by
      rw [nodupKeys_obj]
      refine ⟨by simp, ?_⟩
      intro e he'
      simp only [List.mem_singleton] at he'
      rw [he']
      show nodupKeys (Jsonv.prim .null) = true
      rw [nodupKeys]
    have hdec : decodeVersionBlock (encodeHead none) =
        some (.obj [(headFieldKey, Jsonv.prim .null)]) := by
      rw [decodeVersionBlock, he]
      exact jsonParse_stringify _ hnd
    have hguard : isVersionBlock (.obj [(headFieldKey, Jsonv.prim .null)]) = false := rfl
    simp [get, loadVersion, hvc, hab, hdec, hguard]
  · have he : encodeHead (some s) =
        stringifyJson (.obj [(headFieldKey, Jsonv.prim (.str s))]) := by
      rw [encodeHead.eq_def]
    have hnd : nodupKeys (Jsonv.obj [(headFieldKey, Jsonv.prim (.str s))]) = true := by
      rw [nodupKeys_obj]
      refine ⟨by simp, ?_⟩
      intro e he'
      simp only [List.mem_singleton] at he'
      rw [he']
      show nodupKeys (Jsonv.prim (.str s)) = true
      rw [nodupKeys]
    have hdec : decodeVersionBlock (encodeHead (some s)) =
        some (.obj [(headFieldKey, Jsonv.prim (.str s))]) := by
      rw [decodeVersionBlock, he]
      exact jsonParse_stringify _ hnd
    have hguard : isVersionBlock (.obj [(headFieldKey, Jsonv.prim (.str s))]) = false := rfl
    simp [get, loadVersion, hvc, hab, hdec, hguard]

theorem C10_witness :
    lookupA (St.versionCache (initStore [])) HEAD_KEY = none ∧
    lookupA (St.adapter (initStore [])) HEAD_KEY = some (encodeHead none) ∧
    get (fun b => b) 0 HEAD_KEY (initStore []) = .ok (none, initStore []) :=
  ⟨rfl, rfl, C10_head_key_not_version (fun b => b) 0 (initStore []) none rfl rfl⟩

end HStore
